import Mathlib

/-!
Verification of the `alexi` zero-copy byte-buffer library
(`src/zero_buffer.py`, `src/fast_buffer.py`) against its specification.

A buffer view is modelled by the list of the bytes it can see
(`List Nat`, each element < 256 in practice, although none of the code
depends on that bound).  Raw pointer reads `self._data[i]` are modelled
with `List.getD` (default 0); every read performed by the algorithms we
study is in bounds in the situations the theorems speak about.
-/

namespace Alexi

/-- Byte read from a view modelled as the list of its bytes.  Models the
raw pointer read `self._data[i]`. -/
def byteAt (v : List Nat) (i : Nat) : Nat := v.getD i 0

/-- `BLOOM_WIDTH = ffi.sizeof("long") * 8` on the 64-bit platforms the
sources target. -/
def BLOOM_WIDTH : Nat := 64

/-- `BufferView._bloom_add`: `mask | (1 << (c & (BLOOM_WIDTH - 1)))`. -/
def bloomAdd (mask c : Nat) : Nat := mask ||| (1 <<< (c &&& (BLOOM_WIDTH - 1)))

/-- `BufferView._bloom`: `mask & (1 << (c & (BLOOM_WIDTH - 1)))`.  The
sources use the returned number as a truth value, so we keep the number. -/
def bloomHit (mask c : Nat) : Nat := mask &&& (1 <<< (c &&& (BLOOM_WIDTH - 1)))

/-- The loop of `BufferView._make_find_mask`: for `i` in `[i0, mlast)` the
mask collects `needle[i]` and `skip` becomes `mlast - i - 1` whenever
`needle[i] == needle[mlast]`; at the end the mask also collects
`needle[mlast]`. -/
def makeFindMaskAux (n : List Nat) (mlast i mask skp : Nat) : Nat × Nat :=
  if i < mlast then
    makeFindMaskAux n mlast (i + 1) (bloomAdd mask (byteAt n i))
      (if byteAt n i = byteAt n mlast then mlast - i - 1 else skp)
  else (bloomAdd mask (byteAt n mlast), skp)
termination_by mlast - i

/-- `BufferView._make_find_mask` (zero_buffer.py 266-275, fast_buffer.py
308-317): `skip` starts at `mlast - 1`. -/
def makeFindMask (n : List Nat) : Nat × Nat :=
  makeFindMaskAux n (n.length - 1) 0 0 (n.length - 1 - 1)

/-- The loop of `BufferView._make_rfind_mask`: `i` runs from
`len(needle) - 1` down to `1`; the mask collects `needle[i]` and `skip`
becomes `i - 1` whenever `needle[i] == needle[0]`. -/
def makeRFindMaskAux (n : List Nat) (i mask skp : Nat) : Nat × Nat :=
  if i = 0 then (mask, skp)
  else
    makeRFindMaskAux n (i - 1) (bloomAdd mask (byteAt n i))
      (if byteAt n i = byteAt n 0 then i - 1 else skp)
termination_by i

/-- `BufferView._make_rfind_mask` (zero_buffer.py 303-310): the mask starts
holding `needle[0]` and `skip` starts at `len(needle) - 1`. -/
def makeRFindMask (n : List Nat) : Nat × Nat :=
  makeRFindMaskAux n (n.length - 1) (bloomAdd 0 (byteAt n 0)) (n.length - 1)

/-- Model of the libc `memchr` call made by `find` for one-byte needles
(contract from the spec, section 6): first index `i` in `[i, stop)` whose
byte equals `b`, as the absolute index into the view, else `-1`. -/
def memchrFind (v : List Nat) (b i stop : Nat) : Int :=
  if i < stop then
    (if byteAt v i = b then (i : Int) else memchrFind v b (i + 1) stop)
  else -1
termination_by stop - i

/-- Model of the `Zero_memrchr` call made by `rfind` for one-byte needles
(contract from the spec, section 6): last index in `[start, stop)` whose
byte equals `b`, as the absolute index into the view, else `-1`. -/
def memrchrFind (v : List Nat) (b start stop : Nat) : Int :=
  if start < stop then
    (if byteAt v (stop - 1) = b then ((stop : Int) - 1)
     else memrchrFind v b start (stop - 1))
  else -1
termination_by stop

/-- `BufferView._multi_char_find` (zero_buffer.py 277-301, fast_buffer.py
319-337).  The Python loop variable `i` holds one less than the candidate
position at the top of the loop; `c` here is the candidate position
itself (`i + 1` after the increment).  The guard `i + 1 <= start + w`
with `w = (stop - start) - len(needle)` is exactly
`c + len(needle) <= stop`.  The look-ahead Bloom test deliberately uses
`len(self)` (the view length), not `stop`, like the source. -/
def multiCharFind (v n : List Nat) (stop mask skp c : Nat) : Int :=
  if c + n.length ≤ stop then
    if byteAt v (c + n.length - 1) = byteAt n (n.length - 1) then
      if (List.range (n.length - 1)).all
          (fun j => byteAt v (c + j) == byteAt n j) then
        (c : Int)
      else
        if c + n.length < v.length ∧ bloomHit mask (byteAt v (c + n.length)) = 0 then
          multiCharFind v n stop mask skp (c + n.length + 1)
        else
          multiCharFind v n stop mask skp (c + skp + 1)
    else
      if c + n.length < v.length ∧ bloomHit mask (byteAt v (c + n.length)) = 0 then
        multiCharFind v n stop mask skp (c + n.length + 1)
      else
        multiCharFind v n stop mask skp (c + 1)
  else -1
termination_by stop + 1 - c
decreasing_by all_goals omega

/-- `BufferView._multi_char_rfind` (zero_buffer.py 312-329).  `c` is the
candidate position (the Python `i` after the decrement at the top of the
loop); the loop guard `i - 1 >= start` before the decrement is `c ≥ start`
for the new candidate.  The backward look-ahead reads `self[i - 1]`
guarded by `i - 1 >= 0`. -/
def multiCharRFind (v n : List Nat) (start mask skp : Nat) (c : Int) : Int :=
  if c ≥ (start : Int) then
    if byteAt v c.toNat = byteAt n 0 then
      if (List.range (n.length - 1)).all
          (fun j => byteAt v (c.toNat + (j + 1)) == byteAt n (j + 1)) then
        c
      else
        if 1 ≤ c.toNat ∧ bloomHit mask (byteAt v (c.toNat - 1)) = 0 then
          multiCharRFind v n start mask skp (c - n.length - 1)
        else
          multiCharRFind v n start mask skp (c - skp - 1)
    else
      if 1 ≤ c.toNat ∧ bloomHit mask (byteAt v (c.toNat - 1)) = 0 then
        multiCharRFind v n start mask skp (c - n.length - 1)
      else
        multiCharRFind v n start mask skp (c - 1)
  else -1
termination_by (c + 1 - start).toNat
decreasing_by all_goals omega

/-- `stop = stop or len(self)`: Python treats both `None` and `0` as
"use the view length". -/
def pyStopOrLen (stopOpt : Option Int) (n : Nat) : Int :=
  match stopOpt with
  | none => (n : Int)
  | some s => if s = 0 then (n : Int) else s

/-- `BufferView.find` (zero_buffer.py 173-192; fast_buffer.py 250-269 is
the same algorithm): clamp `start` below by 0 and `stop` above by the
view length, return -1 on an empty range, return `start` for an empty
needle, `memchr` for a one-byte needle, and the Boyer-Moore-Horspool
scan otherwise. -/
def find (v n : List Nat) (start : Int) (stopOpt : Option Int) : Int :=
  let stop0 := pyStopOrLen stopOpt v.length
  let start1 : Int := if start < 0 then 0 else start
  let stop1 : Int := if stop0 > (v.length : Int) then (v.length : Int) else stop0
  if stop1 - start1 < 0 then -1
  else if n.length = 0 then start1
  else if n.length = 1 then memchrFind v (byteAt n 0) start1.toNat stop1.toNat
  else
    let ms := makeFindMask n
    multiCharFind v n stop1.toNat ms.1 ms.2 start1.toNat

/-- `BufferView.rfind` (zero_buffer.py 200-221): same clamping, then
`memrchr` for one-byte needles and the backward Boyer-Moore-Horspool scan
otherwise, starting from candidate `stop - len(needle)`. -/
def rfind (v n : List Nat) (start : Int) (stopOpt : Option Int) : Int :=
  let stop0 := pyStopOrLen stopOpt v.length
  let start1 : Int := if start < 0 then 0 else start
  let stop1 : Int := if stop0 > (v.length : Int) then (v.length : Int) else stop0
  if stop1 - start1 < 0 then -1
  else if n.length = 0 then start1
  else if n.length = 1 then memrchrFind v (byteAt n 0) start1.toNat stop1.toNat
  else
    let ms := makeRFindMask n
    multiCharRFind v n start1.toNat ms.1 ms.2 (stop1 - n.length)

/-- Specification-side predicate: the needle `n` occurs in `v` at
position `i` (the bytes `v[i .. i + len n)` equal `n`). -/
def matchesAt (v n : List Nat) (i : Nat) : Bool := (v.drop i).take n.length == n

/-- Specification-side forward search: smallest `i ≥ c` at which `n`
occurs in `v`, else -1. -/
def firstMatchFrom (v n : List Nat) (c : Nat) : Int :=
  if c + n.length ≤ v.length then
    (if matchesAt v n c then (c : Int) else firstMatchFrom v n (c + 1))
  else -1
termination_by v.length + 1 - c
decreasing_by omega

/-- Specification-side backward search: largest `i ≤ c` at which `n`
occurs in `v`, else -1. -/
def lastMatchUpto (v n : List Nat) (c : Int) : Int :=
  if c ≥ 0 then
    (if matchesAt v n c.toNat then c else lastMatchUpto v n (c - 1))
  else -1
termination_by (c + 1).toNat
decreasing_by omega

theorem byteAt_eq_getElem {v : List Nat} {i : Nat} (h : i < v.length) :
    byteAt v i = v[i] := List.getD_eq_getElem v 0 h

theorem matchesAt_iff {v n : List Nat} {c : Nat} (hn : 1 ≤ n.length) :
    matchesAt v n c = true ↔
      c + n.length ≤ v.length ∧
        ∀ j, j < n.length → byteAt v (c + j) = byteAt n j := by
  unfold matchesAt
  rw [beq_iff_eq]
  constructor
  · intro h
    have hlen := congrArg List.length h
    rw [List.length_take, List.length_drop] at hlen
    have hcv : c + n.length ≤ v.length := by omega
    refine ⟨hcv, fun j hj => ?_⟩
    have hj1 : j < ((v.drop c).take n.length).length := by
      rw [List.length_take, List.length_drop]; omega
    have he : ((v.drop c).take n.length)[j] = n[j] := by
      simp only [h]
    rw [List.getElem_take, List.getElem_drop] at he
    rw [byteAt_eq_getElem (show c + j < v.length by omega), byteAt_eq_getElem hj]
    exact he
  · rintro ⟨hcv, hbytes⟩
    apply List.ext_getElem
    · rw [List.length_take, List.length_drop]; omega
    · intro i h1 h2
      rw [List.getElem_take, List.getElem_drop]
      have hb := hbytes i h2
      rwa [byteAt_eq_getElem (show c + i < v.length by omega),
        byteAt_eq_getElem h2] at hb

theorem matchesAt_false_of_long {v n : List Nat} {q : Nat} (hn : 1 ≤ n.length)
    (h : v.length < q + n.length) : matchesAt v n q = false := by
  rcases hm : matchesAt v n q with _ | _
  · rfl
  · rcases (matchesAt_iff hn).1 hm with ⟨hle, _⟩
    omega

theorem matchesAt_byte {v n : List Nat} {q : Nat} (hn : 1 ≤ n.length)
    (h : matchesAt v n q = true) (idx : Nat) (h1 : q ≤ idx)
    (h2 : idx < q + n.length) : byteAt v idx = byteAt n (idx - q) := by
  rcases (matchesAt_iff hn).1 h with ⟨_, hb⟩
  have hx := hb (idx - q) (by omega)
  rwa [show q + (idx - q) = idx by omega] at hx

theorem bloomHit_ne_zero_iff (mask x : Nat) :
    bloomHit mask x ≠ 0 ↔ mask.testBit (x &&& (BLOOM_WIDTH - 1)) = true := by
  unfold bloomHit
  rw [Nat.shiftLeft_eq, one_mul, Nat.and_two_pow]
  rcases h : mask.testBit (x &&& (BLOOM_WIDTH - 1)) <;> simp

theorem bloomHit_bloomAdd_self (mask c : Nat) : bloomHit (bloomAdd mask c) c ≠ 0 := by
  rw [bloomHit_ne_zero_iff]
  unfold bloomAdd
  rw [Nat.testBit_or, Nat.shiftLeft_eq, one_mul, Nat.testBit_two_pow]
  simp

theorem bloomHit_bloomAdd_of (mask c x : Nat) (h : bloomHit mask x ≠ 0) :
    bloomHit (bloomAdd mask c) x ≠ 0 := by
  rw [bloomHit_ne_zero_iff] at h ⊢
  unfold bloomAdd
  rw [Nat.testBit_or, h]
  simp

theorem makeFindMaskAux_mask (n : List Nat) (mlast : Nat) :
    ∀ k i mask skp x, mlast - i ≤ k →
      (bloomHit mask x ≠ 0 ∨ ∃ j, i ≤ j ∧ j ≤ mlast ∧ x = byteAt n j) →
      bloomHit (makeFindMaskAux n mlast i mask skp).1 x ≠ 0 := by
  intro k
  induction k with
  | zero =>
    intro i mask skp x hle hx
    rw [makeFindMaskAux, if_neg (by omega)]
    rcases hx with hmask | ⟨j, hj1, hj2, hj3⟩
    · exact bloomHit_bloomAdd_of _ _ _ hmask
    · have : j = mlast := by omega
      subst this; subst hj3
      exact bloomHit_bloomAdd_self _ _
  | succ k ih =>
    intro i mask skp x hle hx
    by_cases h : i < mlast
    · rw [makeFindMaskAux, if_pos h]
      apply ih _ _ _ _ (by omega)
      rcases hx with hmask | ⟨j, hj1, hj2, hj3⟩
      · exact Or.inl (bloomHit_bloomAdd_of _ _ _ hmask)
      · rcases Nat.eq_or_lt_of_le hj1 with heq | hlt
        · subst hj3; rw [← heq]
          exact Or.inl (bloomHit_bloomAdd_self _ _)
        · exact Or.inr ⟨j, hlt, hj2, hj3⟩
    · rw [makeFindMaskAux, if_neg h]
      rcases hx with hmask | ⟨j, hj1, hj2, hj3⟩
      · exact bloomHit_bloomAdd_of _ _ _ hmask
      · have : j = mlast := by omega
        subst this; subst hj3
        exact bloomHit_bloomAdd_self _ _

theorem makeFindMask_mask (n : List Nat) (hn : 1 ≤ n.length) :
    ∀ j, j < n.length → bloomHit (makeFindMask n).1 (byteAt n j) ≠ 0 := by
  intro j hj
  unfold makeFindMask
  exact makeFindMaskAux_mask n (n.length - 1) (n.length - 1) 0 0 _ _ (by omega)
    (Or.inr ⟨j, by omega, by omega, rfl⟩)

theorem makeFindMaskAux_skp (n : List Nat) (mlast : Nat) :
    ∀ k i mask skp, mlast - i ≤ k →
      (∀ j, j < i → mlast - skp ≤ j → j < mlast → byteAt n j ≠ byteAt n mlast) →
      ∀ j, mlast - (makeFindMaskAux n mlast i mask skp).2 ≤ j → j < mlast →
        byteAt n j ≠ byteAt n mlast := by
  intro k
  induction k with
  | zero =>
    intro i mask skp hle hinv j hj1 hj2
    rw [makeFindMaskAux, if_neg (by omega)] at hj1
    exact hinv j (by omega) hj1 hj2
  | succ k ih =>
    intro i mask skp hle hinv j hj1 hj2
    by_cases h : i < mlast
    · rw [makeFindMaskAux, if_pos h] at hj1
      by_cases hb : byteAt n i = byteAt n mlast
      · rw [if_pos hb] at hj1
        refine ih (i + 1) _ _ (by omega) ?_ j hj1 hj2
        intro j' h1 h2 h3
        omega
      · rw [if_neg hb] at hj1
        refine ih (i + 1) _ _ (by omega) ?_ j hj1 hj2
        intro j' h1 h2 h3
        rcases Nat.lt_succ_iff_lt_or_eq.1 h1 with h4 | h4
        · exact hinv j' h4 h2 h3
        · subst h4; exact hb
    · rw [makeFindMaskAux, if_neg h] at hj1
      exact hinv j (by omega) hj1 hj2

theorem makeFindMask_skp (n : List Nat) :
    ∀ j, (n.length - 1) - (makeFindMask n).2 ≤ j → j < n.length - 1 →
      byteAt n j ≠ byteAt n (n.length - 1) := by
  unfold makeFindMask
  exact makeFindMaskAux_skp n (n.length - 1) (n.length - 1) 0 0 _ (by omega)
    (fun j h1 _ _ => by omega)

theorem makeFindMaskAux_skp_le (n : List Nat) (mlast : Nat) :
    ∀ k i mask skp, mlast - i ≤ k → skp ≤ mlast - 1 →
      (makeFindMaskAux n mlast i mask skp).2 ≤ mlast - 1 := by
  intro k
  induction k with
  | zero =>
    intro i mask skp hle hb
    rw [makeFindMaskAux, if_neg (by omega)]
    exact hb
  | succ k ih =>
    intro i mask skp hle hb
    by_cases h : i < mlast
    · rw [makeFindMaskAux, if_pos h]
      refine ih (i + 1) _ _ (by omega) ?_
      by_cases hx : byteAt n i = byteAt n mlast
      · rw [if_pos hx]; omega
      · rw [if_neg hx]; exact hb
    · rw [makeFindMaskAux, if_neg h]
      exact hb

theorem makeFindMask_skp_le (n : List Nat) : (makeFindMask n).2 ≤ n.length - 1 := by
  unfold makeFindMask
  have := makeFindMaskAux_skp_le n (n.length - 1) (n.length - 1) 0 0
    (n.length - 1 - 1) (by omega) (by omega)
  omega

theorem makeRFindMaskAux_mask (n : List Nat) :
    ∀ k i mask skp x, i ≤ k →
      (bloomHit mask x ≠ 0 ∨ ∃ j, 1 ≤ j ∧ j ≤ i ∧ x = byteAt n j) →
      bloomHit (makeRFindMaskAux n i mask skp).1 x ≠ 0 := by
  intro k
  induction k with
  | zero =>
    intro i mask skp x hle hx
    have : i = 0 := by omega
    subst this
    rw [makeRFindMaskAux, if_pos rfl]
    rcases hx with hmask | ⟨j, hj1, hj2, _⟩
    · exact hmask
    · omega
  | succ k ih =>
    intro i mask skp x hle hx
    by_cases h : i = 0
    · subst h
      rw [makeRFindMaskAux, if_pos rfl]
      rcases hx with hmask | ⟨j, hj1, hj2, _⟩
      · exact hmask
      · omega
    · rw [makeRFindMaskAux, if_neg h]
      apply ih _ _ _ _ (by omega)
      rcases hx with hmask | ⟨j, hj1, hj2, hj3⟩
      · exact Or.inl (bloomHit_bloomAdd_of _ _ _ hmask)
      · rcases Nat.eq_or_lt_of_le hj2 with heq | hlt
        · subst hj3; rw [heq]
          exact Or.inl (bloomHit_bloomAdd_self _ _)
        · exact Or.inr ⟨j, hj1, by omega, hj3⟩

theorem makeRFindMask_mask (n : List Nat) (hn : 1 ≤ n.length) :
    ∀ j, j < n.length → bloomHit (makeRFindMask n).1 (byteAt n j) ≠ 0 := by
  intro j hj
  unfold makeRFindMask
  rcases Nat.eq_zero_or_pos j with h0 | h1
  · subst h0
    exact makeRFindMaskAux_mask n (n.length - 1) (n.length - 1) _ _ _ (by omega)
      (Or.inl (bloomHit_bloomAdd_self _ _))
  · exact makeRFindMaskAux_mask n (n.length - 1) (n.length - 1) _ _ _ (by omega)
      (Or.inr ⟨j, h1, by omega, rfl⟩)

theorem makeRFindMaskAux_skp (n : List Nat) :
    ∀ k i mask skp, i ≤ k →
      (∀ j, i < j → 1 ≤ j → j ≤ skp → byteAt n j ≠ byteAt n 0) →
      ∀ j, 1 ≤ j → j ≤ (makeRFindMaskAux n i mask skp).2 →
        byteAt n j ≠ byteAt n 0 := by
  intro k
  induction k with
  | zero =>
    intro i mask skp hle hinv j hj1 hj2
    have : i = 0 := by omega
    subst this
    rw [makeRFindMaskAux, if_pos rfl] at hj2
    exact hinv j (by omega) hj1 hj2
  | succ k ih =>
    intro i mask skp hle hinv j hj1 hj2
    by_cases h : i = 0
    · subst h
      rw [makeRFindMaskAux, if_pos rfl] at hj2
      exact hinv j (by omega) hj1 hj2
    · rw [makeRFindMaskAux, if_neg h] at hj2
      by_cases hb : byteAt n i = byteAt n 0
      · rw [if_pos hb] at hj2
        refine ih (i - 1) _ _ (by omega) ?_ j hj1 hj2
        intro j' h1 h2 h3
        omega
      · rw [if_neg hb] at hj2
        refine ih (i - 1) _ _ (by omega) ?_ j hj1 hj2
        intro j' h1 h2 h3
        by_cases hji : j' = i
        · subst hji; exact hb
        · exact hinv j' (by omega) h2 h3

theorem makeRFindMask_skp (n : List Nat) :
    ∀ j, 1 ≤ j → j ≤ (makeRFindMask n).2 → byteAt n j ≠ byteAt n 0 := by
  unfold makeRFindMask
  exact makeRFindMaskAux_skp n (n.length - 1) (n.length - 1) _ _ (by omega)
    (fun j h1 _ h3 => by omega)

theorem makeRFindMaskAux_skp_le (n : List Nat) (B : Nat) :
    ∀ k i mask skp, i ≤ k → skp ≤ B → i - 1 ≤ B →
      (makeRFindMaskAux n i mask skp).2 ≤ B := by
  intro k
  induction k with
  | zero =>
    intro i mask skp hle hb _
    have : i = 0 := by omega
    subst this
    rw [makeRFindMaskAux, if_pos rfl]
    exact hb
  | succ k ih =>
    intro i mask skp hle hb hib
    by_cases h : i = 0
    · subst h
      rw [makeRFindMaskAux, if_pos rfl]
      exact hb
    · rw [makeRFindMaskAux, if_neg h]
      refine ih (i - 1) _ _ (by omega) ?_ (by omega)
      by_cases hx : byteAt n i = byteAt n 0
      · rw [if_pos hx]; omega
      · rw [if_neg hx]; exact hb

theorem makeRFindMask_skp_le (n : List Nat) : (makeRFindMask n).2 ≤ n.length - 1 := by
  unfold makeRFindMask
  exact makeRFindMaskAux_skp_le n (n.length - 1) (n.length - 1) (n.length - 1) _ _
    (by omega) (by omega) (by omega)

theorem firstMatchFrom_congr (v n : List Nat) :
    ∀ k c c', c' - c ≤ k → c ≤ c' →
      (∀ q, c ≤ q → q < c' → matchesAt v n q = false) →
      firstMatchFrom v n c = firstMatchFrom v n c' := by
  intro k
  induction k with
  | zero =>
    intro c c' h1 h2 _
    have : c = c' := by omega
    rw [this]
  | succ k ih =>
    intro c c' h1 h2 hnone
    by_cases hc : c = c'
    · rw [hc]
    · have hlt : c < c' := by omega
      have step : firstMatchFrom v n c = firstMatchFrom v n (c + 1) := by
        by_cases hg : c + n.length ≤ v.length
        · rw [firstMatchFrom, if_pos hg, hnone c le_rfl hlt]
          simp
        · rw [firstMatchFrom, if_neg hg]
          rw [firstMatchFrom, if_neg (by omega)]
      rw [step]
      exact ih (c + 1) c' (by omega) (by omega)
        (fun q hq1 hq2 => hnone q (by omega) hq2)

theorem firstMatchFrom_spec (v n : List Nat) (hn : 1 ≤ n.length) :
    ∀ k c, v.length + 1 - c ≤ k →
      (firstMatchFrom v n c = -1 → ∀ q, c ≤ q → matchesAt v n q = false) ∧
      (firstMatchFrom v n c ≠ -1 → ∃ i : Nat, firstMatchFrom v n c = i ∧ c ≤ i ∧
        matchesAt v n i = true ∧
        ∀ j, c ≤ j → j < i → matchesAt v n j = false) := by
  intro k
  induction k with
  | zero =>
    intro c hk
    have hcv : v.length < c := by omega
    rw [firstMatchFrom, if_neg (by omega)]
    refine ⟨fun _ q hq => matchesAt_false_of_long hn (by omega), fun h => absurd rfl h⟩
  | succ k ih =>
    intro c hk
    by_cases hg : c + n.length ≤ v.length
    · by_cases hmc : matchesAt v n c = true
      · rw [firstMatchFrom, if_pos hg, hmc]
        simp only [if_true]
        constructor
        · intro habs
          exact absurd habs (by omega)
        · intro _
          exact ⟨c, rfl, le_rfl, hmc, fun j h1 h2 => by omega⟩
      · have hmc' : matchesAt v n c = false := by
          rcases h : matchesAt v n c with _ | _
          · rfl
          · exact absurd h hmc
        have step : firstMatchFrom v n c = firstMatchFrom v n (c + 1) := by
          rw [firstMatchFrom, if_pos hg, hmc']
          simp
        rcases ih (c + 1) (by omega) with ⟨ihn, ihs⟩
        rw [step]
        constructor
        · intro hm1 q hq
          rcases Nat.eq_or_lt_of_le hq with heq | hlt2
          · rw [← heq]; exact hmc'
          · exact ihn hm1 q hlt2
        · intro hne
          rcases ihs hne with ⟨i, hi1, hi2, hi3, hi4⟩
          refine ⟨i, hi1, by omega, hi3, fun j h1 h2 => ?_⟩
          rcases Nat.eq_or_lt_of_le h1 with heq | hlt2
          · rw [← heq]; exact hmc'
          · exact hi4 j hlt2 h2
    · rw [firstMatchFrom, if_neg hg]
      refine ⟨fun _ q hq => matchesAt_false_of_long hn (by omega), fun h => absurd rfl h⟩

theorem lastMatchUpto_neg (v n : List Nat) (c : Int) (h : c < 0) :
    lastMatchUpto v n c = -1 := by
  rw [lastMatchUpto, if_neg (by omega)]

theorem lastMatchUpto_congr (v n : List Nat) :
    ∀ k (c c' : Int), (c - c').toNat ≤ k → c' ≤ c →
      (∀ q : Nat, c' < (q : Int) → (q : Int) ≤ c → matchesAt v n q = false) →
      lastMatchUpto v n c = lastMatchUpto v n c' := by
  intro k
  induction k with
  | zero =>
    intro c c' h1 h2 _
    have : c = c' := by omega
    rw [this]
  | succ k ih =>
    intro c c' h1 h2 hnone
    by_cases hc : c = c'
    · rw [hc]
    · have hlt : c' < c := by omega
      have step : lastMatchUpto v n c = lastMatchUpto v n (c - 1) := by
        by_cases hg : c ≥ 0
        · have hm := hnone c.toNat (by omega) (by omega)
          rw [lastMatchUpto, if_pos hg, hm]
          simp
        · rw [lastMatchUpto_neg v n c (by omega),
            lastMatchUpto_neg v n (c - 1) (by omega)]
      rw [step]
      exact ih (c - 1) c' (by omega) (by omega)
        (fun q hq1 hq2 => hnone q hq1 (by omega))

theorem lastMatchUpto_spec (v n : List Nat) :
    ∀ k (c : Int), (c + 1).toNat ≤ k →
      (lastMatchUpto v n c = -1 → ∀ q : Nat, (q : Int) ≤ c → matchesAt v n q = false) ∧
      (lastMatchUpto v n c ≠ -1 → ∃ i : Nat, lastMatchUpto v n c = i ∧ (i : Int) ≤ c ∧
        matchesAt v n i = true ∧
        ∀ j : Nat, (i : Int) < j → (j : Int) ≤ c → matchesAt v n j = false) := by
  intro k
  induction k with
  | zero =>
    intro c hk
    have hc : c < 0 := by omega
    rw [lastMatchUpto_neg v n c hc]
    exact ⟨fun _ q hq => by omega, fun h => absurd rfl h⟩
  | succ k ih =>
    intro c hk
    by_cases hg : c ≥ 0
    · by_cases hmc : matchesAt v n c.toNat = true
      · rw [lastMatchUpto, if_pos hg, hmc]
        simp only [if_true]
        constructor
        · intro habs
          omega
        · intro _
          exact ⟨c.toNat, by omega, by omega, hmc, fun j h1 h2 => by omega⟩
      · have hmc' : matchesAt v n c.toNat = false := by
          rcases h : matchesAt v n c.toNat with _ | _
          · rfl
          · exact absurd h hmc
        have step : lastMatchUpto v n c = lastMatchUpto v n (c - 1) := by
          rw [lastMatchUpto, if_pos hg, hmc']
          simp
        rcases ih (c - 1) (by omega) with ⟨ihn, ihs⟩
        rw [step]
        constructor
        · intro hm1 q hq
          by_cases hqc : (q : Int) = c
          · have : q = c.toNat := by omega
            rw [this]; exact hmc'
          · exact ihn hm1 q (by omega)
        · intro hne
          rcases ihs hne with ⟨i, hi1, hi2, hi3, hi4⟩
          refine ⟨i, hi1, by omega, hi3, fun j h1 h2 => ?_⟩
          by_cases hjc : (j : Int) = c
          · have : j = c.toNat := by omega
            rw [this]; exact hmc'
          · exact hi4 j h1 (by omega)
    · rw [lastMatchUpto_neg v n c (by omega)]
      exact ⟨fun _ q hq => by omega, fun h => absurd rfl h⟩

theorem partial_all_iff (v n : List Nat) (c : Nat) :
    (List.range (n.length - 1)).all (fun j => byteAt v (c + j) == byteAt n j) = true ↔
      ∀ j, j < n.length - 1 → byteAt v (c + j) = byteAt n j := by
  rw [List.all_eq_true]
  constructor
  · intro h j hj
    have hb := h j (List.mem_range.2 hj)
    rwa [beq_iff_eq] at hb
  · intro h j hj
    rw [beq_iff_eq]
    exact h j (List.mem_range.1 hj)

/-- The Boyer-Moore-Horspool forward scan agrees with the specification
search when the mask collects every needle byte, the skip distance is
sound for the last-byte anchor, and the scan covers the whole view. -/
theorem multiCharFind_correct (v n : List Nat) (hm : 2 ≤ n.length) (mask skp : Nat)
    (hmask : ∀ j, j < n.length → bloomHit mask (byteAt n j) ≠ 0)
    (hskp : ∀ j, (n.length - 1) - skp ≤ j → j < n.length - 1 →
      byteAt n j ≠ byteAt n (n.length - 1))
    (hskb : skp ≤ n.length - 1) :
    ∀ k c, v.length + 1 - c ≤ k →
      multiCharFind v n v.length mask skp c = firstMatchFrom v n c := by
  have hn : 1 ≤ n.length := by omega
  intro k
  induction k with
  | zero =>
    intro c hk
    rw [multiCharFind, if_neg (by omega), firstMatchFrom, if_neg (by omega)]
  | succ k ih =>
    intro c hk
    by_cases hg : c + n.length ≤ v.length
    · -- the bloom-based jump is sound: if the byte just after the window is
      -- not in the mask, no match starts in (c, c + len n]
      have hbloomjump : bloomHit mask (byteAt v (c + n.length)) = 0 →
          ∀ q, c < q → q ≤ c + n.length → matchesAt v n q = false := by
        intro hb q h1 h2
        rcases h : matchesAt v n q with _ | _
        · rfl
        · exfalso
          have hbyte := matchesAt_byte hn h (c + n.length) (by omega) (by omega)
          have := hmask (c + n.length - q) (by omega)
          rw [← hbyte] at this
          exact this hb
      by_cases ha : byteAt v (c + n.length - 1) = byteAt n (n.length - 1)
      · by_cases hp : (List.range (n.length - 1)).all
            (fun j => byteAt v (c + j) == byteAt n j) = true
        · -- full match at c
          have hmc : matchesAt v n c = true := by
            rw [matchesAt_iff hn]
            refine ⟨hg, fun j hj => ?_⟩
            by_cases hjl : j < n.length - 1
            · exact (partial_all_iff v n c).1 hp j hjl
            · have : j = n.length - 1 := by omega
              subst this
              rwa [show c + (n.length - 1) = c + n.length - 1 by omega]
          rw [multiCharFind, if_pos hg, if_pos ha, if_pos hp,
            firstMatchFrom, if_pos hg, hmc]
          simp
        · -- anchor matched but the full comparison failed: no match at c
          have hmc : matchesAt v n c = false := by
            rcases h : matchesAt v n c with _ | _
            · rfl
            · exfalso
              apply hp
              rw [partial_all_iff]
              intro j hj
              have := matchesAt_byte hn h (c + j) (by omega) (by omega)
              rwa [show c + j - c = j by omega] at this
          by_cases hb : c + n.length < v.length ∧
              bloomHit mask (byteAt v (c + n.length)) = 0
          · rw [multiCharFind, if_pos hg, if_pos ha, if_neg hp, if_pos hb,
              ih (c + n.length + 1) (by omega)]
            apply (firstMatchFrom_congr v n (n.length + 1) c (c + n.length + 1)
              (by omega) (by omega) ?_).symm
            intro q h1 h2
            rcases Nat.eq_or_lt_of_le h1 with heq | hlt
            · rw [← heq]; exact hmc
            · exact hbloomjump hb.2 q hlt (by omega)
          · rw [multiCharFind, if_pos hg, if_pos ha, if_neg hp, if_neg hb,
              ih (c + skp + 1) (by omega)]
            apply (firstMatchFrom_congr v n (skp + 1) c (c + skp + 1)
              (by omega) (by omega) ?_).symm
            intro q h1 h2
            rcases Nat.eq_or_lt_of_le h1 with heq | hlt
            · rw [← heq]; exact hmc
            · -- skip soundness: a match at q would put the anchor byte at a
              -- forbidden repeat of the last needle byte
              rcases h : matchesAt v n q with _ | _
              · rfl
              · exfalso
                have hbyte := matchesAt_byte hn h (c + n.length - 1)
                  (by omega) (by omega)
                rw [ha] at hbyte
                exact hskp (c + n.length - 1 - q) (by omega) (by omega) hbyte.symm
      · -- anchor mismatch: no match at c
        have hmc : matchesAt v n c = false := by
          rcases h : matchesAt v n c with _ | _
          · rfl
          · exfalso
            apply ha
            have := matchesAt_byte hn h (c + n.length - 1) (by omega) (by omega)
            rwa [show c + n.length - 1 - c = n.length - 1 by omega] at this
        by_cases hb : c + n.length < v.length ∧
            bloomHit mask (byteAt v (c + n.length)) = 0
        · rw [multiCharFind, if_pos hg, if_neg ha, if_pos hb,
            ih (c + n.length + 1) (by omega)]
          apply (firstMatchFrom_congr v n (n.length + 1) c (c + n.length + 1)
            (by omega) (by omega) ?_).symm
          intro q h1 h2
          rcases Nat.eq_or_lt_of_le h1 with heq | hlt
          · rw [← heq]; exact hmc
          · exact hbloomjump hb.2 q hlt (by omega)
        · rw [multiCharFind, if_pos hg, if_neg ha, if_neg hb,
            ih (c + 1) (by omega)]
          apply (firstMatchFrom_congr v n 1 c (c + 1) (by omega) (by omega) ?_).symm
          intro q h1 h2
          have : q = c := by omega
          rw [this]; exact hmc
    · rw [multiCharFind, if_neg hg, firstMatchFrom, if_neg hg]

theorem rverify_all_iff (v n : List Nat) (p : Nat) :
    (List.range (n.length - 1)).all
        (fun j => byteAt v (p + (j + 1)) == byteAt n (j + 1)) = true ↔
      ∀ j, 1 ≤ j → j < n.length → byteAt v (p + j) = byteAt n j := by
  rw [List.all_eq_true]
  constructor
  · intro h j hj1 hj2
    have hb := h (j - 1) (List.mem_range.2 (by omega))
    rw [beq_iff_eq] at hb
    rwa [show j - 1 + 1 = j by omega] at hb
  · intro h j hj
    rw [beq_iff_eq]
    exact h (j + 1) (by omega) (by
      have := List.mem_range.1 hj
      omega)

/-- The Boyer-Moore-Horspool backward scan agrees with the specification
search when the mask collects every needle byte, the skip distance is
sound for the first-byte anchor, and the scan starts at or below the last
possible match position. -/
theorem multiCharRFind_correct (v n : List Nat) (hm : 2 ≤ n.length) (mask skp : Nat)
    (hmask : ∀ j, j < n.length → bloomHit mask (byteAt n j) ≠ 0)
    (hskp : ∀ j, 1 ≤ j → j ≤ skp → byteAt n j ≠ byteAt n 0)
    (hskb : skp ≤ n.length - 1) :
    ∀ k (c : Int), (c + 1).toNat ≤ k → c ≤ (v.length : Int) - n.length →
      multiCharRFind v n 0 mask skp c = lastMatchUpto v n c := by
  have hn : 1 ≤ n.length := by omega
  intro k
  induction k with
  | zero =>
    intro c hk _
    rw [multiCharRFind, if_neg (by omega), lastMatchUpto_neg v n c (by omega)]
  | succ k ih =>
    intro c hk hcv
    by_cases hg : c ≥ ((0 : Nat) : Int)
    · have hpv : c.toNat + n.length ≤ v.length := by omega
      have hct : ((c.toNat : Nat) : Int) = c := by omega
      -- the backward bloom-based jump is sound: if the byte just before the
      -- window is not in the mask, no match starts in [c - len n, c)
      have hbloomjump : 1 ≤ c.toNat →
          bloomHit mask (byteAt v (c.toNat - 1)) = 0 →
          ∀ q : Nat, c - (n.length : Int) - 1 < (q : Int) → (q : Int) < c →
            matchesAt v n q = false := by
        intro hp1 hb q h1 h2
        rcases h : matchesAt v n q with _ | _
        · rfl
        · exfalso
          have hbyte := matchesAt_byte hn h (c.toNat - 1) (by omega) (by omega)
          have := hmask (c.toNat - 1 - q) (by omega)
          rw [← hbyte] at this
          exact this hb
      by_cases ha : byteAt v c.toNat = byteAt n 0
      · by_cases hp : (List.range (n.length - 1)).all
            (fun j => byteAt v (c.toNat + (j + 1)) == byteAt n (j + 1)) = true
        · have hmc : matchesAt v n c.toNat = true := by
            rw [matchesAt_iff hn]
            refine ⟨hpv, fun j hj => ?_⟩
            rcases Nat.eq_zero_or_pos j with h0 | h1
            · subst h0; simpa using ha
            · exact (rverify_all_iff v n c.toNat).1 hp j h1 hj
          rw [multiCharRFind, if_pos hg, if_pos ha, if_pos hp,
            lastMatchUpto, if_pos (by omega), hmc]
          simp
        · have hmc : matchesAt v n c.toNat = false := by
            rcases h : matchesAt v n c.toNat with _ | _
            · rfl
            · exfalso
              apply hp
              rw [rverify_all_iff]
              intro j hj1 hj2
              have := matchesAt_byte hn h (c.toNat + j) (by omega) (by omega)
              rwa [show c.toNat + j - c.toNat = j by omega] at this
          by_cases hb : 1 ≤ c.toNat ∧ bloomHit mask (byteAt v (c.toNat - 1)) = 0
          · rw [multiCharRFind, if_pos hg, if_pos ha, if_neg hp, if_pos hb,
              ih (c - n.length - 1) (by omega) (by omega)]
            apply (lastMatchUpto_congr v n (n.length + 1) c (c - n.length - 1)
              (by omega) (by omega) ?_).symm
            intro q h1 h2
            by_cases hqc : (q : Int) = c
            · have : q = c.toNat := by omega
              rw [this]; exact hmc
            · exact hbloomjump hb.1 hb.2 q h1 (by omega)
          · rw [multiCharRFind, if_pos hg, if_pos ha, if_neg hp, if_neg hb,
              ih (c - skp - 1) (by omega) (by omega)]
            apply (lastMatchUpto_congr v n (skp + 1) c (c - skp - 1)
              (by omega) (by omega) ?_).symm
            intro q h1 h2
            by_cases hqc : (q : Int) = c
            · have : q = c.toNat := by omega
              rw [this]; exact hmc
            · -- skip soundness: a match at q would put the anchor byte at a
              -- forbidden repeat of the first needle byte
              rcases h : matchesAt v n q with _ | _
              · rfl
              · exfalso
                have hbyte := matchesAt_byte hn h (c.toNat) (by omega) (by omega)
                rw [ha] at hbyte
                exact hskp (c.toNat - q) (by omega) (by omega) hbyte.symm
      · have hmc : matchesAt v n c.toNat = false := by
          rcases h : matchesAt v n c.toNat with _ | _
          · rfl
          · exfalso
            apply ha
            have := matchesAt_byte hn h (c.toNat) (by omega) (by omega)
            rwa [show c.toNat - c.toNat = 0 by omega] at this
        by_cases hb : 1 ≤ c.toNat ∧ bloomHit mask (byteAt v (c.toNat - 1)) = 0
        · rw [multiCharRFind, if_pos hg, if_neg ha, if_pos hb,
            ih (c - n.length - 1) (by omega) (by omega)]
          apply (lastMatchUpto_congr v n (n.length + 1) c (c - n.length - 1)
            (by omega) (by omega) ?_).symm
          intro q h1 h2
          by_cases hqc : (q : Int) = c
          · have : q = c.toNat := by omega
            rw [this]; exact hmc
          · exact hbloomjump hb.1 hb.2 q h1 (by omega)
        · rw [multiCharRFind, if_pos hg, if_neg ha, if_neg hb,
            ih (c - 1) (by omega) (by omega)]
          apply (lastMatchUpto_congr v n 1 c (c - 1) (by omega) (by omega) ?_).symm
          intro q h1 h2
          have : q = c.toNat := by omega
          rw [this]; exact hmc
    · rw [multiCharRFind, if_neg hg, lastMatchUpto_neg v n c (by omega)]

theorem matchesAt_single {v n : List Nat} (hn : n.length = 1) (i : Nat) :
    matchesAt v n i = true ↔ i < v.length ∧ byteAt v i = byteAt n 0 := by
  rw [matchesAt_iff (by omega)]
  constructor
  · rintro ⟨h1, h2⟩
    have := h2 0 (by omega)
    simp only [Nat.add_zero] at this
    exact ⟨by omega, this⟩
  · rintro ⟨h1, h2⟩
    refine ⟨by omega, fun j hj => ?_⟩
    have : j = 0 := by omega
    subst this
    simpa using h2

theorem memchrFind_eq (v n : List Nat) (hn : n.length = 1) :
    ∀ k i, v.length + 1 - i ≤ k →
      memchrFind v (byteAt n 0) i v.length = firstMatchFrom v n i := by
  intro k
  induction k with
  | zero =>
    intro i hk
    rw [memchrFind, if_neg (by omega), firstMatchFrom, if_neg (by omega)]
  | succ k ih =>
    intro i hk
    by_cases hg : i < v.length
    · by_cases hb : byteAt v i = byteAt n 0
      · have hmc : matchesAt v n i = true := (matchesAt_single hn i).2 ⟨hg, hb⟩
        rw [memchrFind, if_pos hg, if_pos hb, firstMatchFrom,
          if_pos (by omega : i + n.length ≤ v.length), hmc]
        simp
      · have hmc : matchesAt v n i = false := by
          rcases h : matchesAt v n i with _ | _
          · rfl
          · exact absurd ((matchesAt_single hn i).1 h).2 hb
        rw [memchrFind, if_pos hg, if_neg hb, firstMatchFrom,
          if_pos (by omega : i + n.length ≤ v.length), hmc]
        simp only [if_false, Bool.false_eq_true]
        exact ih (i + 1) (by omega)
    · rw [memchrFind, if_neg hg, firstMatchFrom, if_neg (by omega)]

theorem memrchrFind_eq (v n : List Nat) (hn : n.length = 1) :
    ∀ s, s ≤ v.length →
      memrchrFind v (byteAt n 0) 0 s = lastMatchUpto v n ((s : Int) - 1) := by
  intro s
  induction s with
  | zero =>
    intro _
    rw [memrchrFind, if_neg (by omega), lastMatchUpto_neg v n _ (by omega)]
  | succ s ih =>
    intro hs
    have hg : (0 : Nat) < s + 1 := by omega
    by_cases hb : byteAt v (s + 1 - 1) = byteAt n 0
    · have hmc : matchesAt v n s = true := (matchesAt_single hn s).2
        ⟨by omega, by simpa using hb⟩
      rw [memrchrFind, if_pos hg, if_pos hb, lastMatchUpto, if_pos (by omega)]
      rw [show (((s + 1 : Nat) : Int) - 1).toNat = s by omega, hmc]
      simp
    · have hmc : matchesAt v n s = false := by
        rcases h : matchesAt v n s with _ | _
        · rfl
        · exact absurd (by simpa using ((matchesAt_single hn s).1 h).2) hb
      rw [memrchrFind, if_pos hg, if_neg hb, lastMatchUpto, if_pos (by omega)]
      rw [show (((s + 1 : Nat) : Int) - 1).toNat = s by omega, hmc]
      simp only [if_false, Bool.false_eq_true]
      rw [show ((s + 1 : Nat) : Int) - 1 - 1 = (s : Int) - 1 by omega]
      exact ih (by omega)

/-- `BufferView.find` with default arguments computes the least match
position. -/
theorem find_correct (v n : List Nat) (hn : 1 ≤ n.length) (hv : n.length ≤ v.length) :
    find v n 0 none = firstMatchFrom v n 0 := by
  simp only [find, pyStopOrLen]
  rw [if_neg (by omega : ¬((0 : Int) < 0)),
    if_neg (by omega : ¬(((v.length : Nat) : Int) > ((v.length : Nat) : Int))),
    if_neg (by omega : ¬(((v.length : Nat) : Int) - 0 < 0)),
    if_neg (by omega : ¬(n.length = 0))]
  by_cases h1 : n.length = 1
  · rw [if_pos h1]
    have := memchrFind_eq v n h1 (v.length + 1) 0 (by omega)
    simpa using this
  · rw [if_neg h1]
    have := multiCharFind_correct v n (by omega) (makeFindMask n).1 (makeFindMask n).2
      (makeFindMask_mask n (by omega)) (makeFindMask_skp n) (makeFindMask_skp_le n)
      (v.length + 1) 0 (by omega)
    simpa using this

/-- `BufferView.rfind` with default arguments computes the greatest match
position. -/
theorem rfind_correct (v n : List Nat) (hn : 1 ≤ n.length) (hv : n.length ≤ v.length) :
    rfind v n 0 none = lastMatchUpto v n ((v.length : Int) - n.length) := by
  simp only [rfind, pyStopOrLen]
  rw [if_neg (by omega : ¬((0 : Int) < 0)),
    if_neg (by omega : ¬(((v.length : Nat) : Int) > ((v.length : Nat) : Int))),
    if_neg (by omega : ¬(((v.length : Nat) : Int) - 0 < 0)),
    if_neg (by omega : ¬(n.length = 0))]
  by_cases h1 : n.length = 1
  · rw [if_pos h1]
    have := memrchrFind_eq v n h1 v.length (by omega)
    have h2 : ((v.length : Nat) : Int) - 1 = (v.length : Int) - n.length := by
      rw [h1]; omega
    rw [h2] at this
    simpa using this
  · rw [if_neg h1]
    have := multiCharRFind_correct v n (by omega) (makeRFindMask n).1 (makeRFindMask n).2
      (makeRFindMask_mask n (by omega)) (makeRFindMask_skp n) (makeRFindMask_skp_le n)
      ((v.length : Int) - n.length + 1).toNat ((v.length : Int) - n.length)
      (by omega) (by omega)
    simpa using this

theorem memchrFind_bounds (v : List Nat) (b : Nat) :
    ∀ k i stop, stop - i ≤ k → memchrFind v b i stop ≠ -1 →
      (i : Int) ≤ memchrFind v b i stop ∧ memchrFind v b i stop < (stop : Int) := by
  intro k
  induction k with
  | zero =>
    intro i stop hk hne
    rw [memchrFind, if_neg (by omega)] at hne ⊢
    exact absurd rfl hne
  | succ k ih =>
    intro i stop hk hne
    by_cases hg : i < stop
    · by_cases hb : byteAt v i = b
      · rw [memchrFind, if_pos hg, if_pos hb] at hne ⊢
        omega
      · rw [memchrFind, if_pos hg, if_neg hb] at hne ⊢
        have := ih (i + 1) stop (by omega) hne
        omega
    · rw [memchrFind, if_neg hg] at hne
      exact absurd rfl hne

theorem multiCharFind_bounds (v n : List Nat) (stop mask skp : Nat) :
    ∀ k c, stop + 1 - c ≤ k → multiCharFind v n stop mask skp c ≠ -1 →
      (c : Int) ≤ multiCharFind v n stop mask skp c ∧
        multiCharFind v n stop mask skp c + n.length ≤ (stop : Int) := by
  intro k
  induction k with
  | zero =>
    intro c hk hne
    rw [multiCharFind, if_neg (by omega)] at hne
    exact absurd rfl hne
  | succ k ih =>
    intro c hk hne
    by_cases hg : c + n.length ≤ stop
    · by_cases ha : byteAt v (c + n.length - 1) = byteAt n (n.length - 1)
      · by_cases hp : (List.range (n.length - 1)).all
            (fun j => byteAt v (c + j) == byteAt n j) = true
        · rw [multiCharFind, if_pos hg, if_pos ha, if_pos hp] at hne ⊢
          omega
        · by_cases hb : c + n.length < v.length ∧
              bloomHit mask (byteAt v (c + n.length)) = 0
          · rw [multiCharFind, if_pos hg, if_pos ha, if_neg hp, if_pos hb] at hne ⊢
            have := ih (c + n.length + 1) (by omega) hne
            omega
          · rw [multiCharFind, if_pos hg, if_pos ha, if_neg hp, if_neg hb] at hne ⊢
            have := ih (c + skp + 1) (by omega) hne
            omega
      · by_cases hb : c + n.length < v.length ∧
            bloomHit mask (byteAt v (c + n.length)) = 0
        · rw [multiCharFind, if_pos hg, if_neg ha, if_pos hb] at hne ⊢
          have := ih (c + n.length + 1) (by omega) hne
          omega
        · rw [multiCharFind, if_pos hg, if_neg ha, if_neg hb] at hne ⊢
          have := ih (c + 1) (by omega) hne
          omega
    · rw [multiCharFind, if_neg hg] at hne
      exact absurd rfl hne

theorem multiCharFind_matches (v n : List Nat) (hn : 1 ≤ n.length)
    (stop mask skp : Nat) (hsv : stop ≤ v.length) :
    ∀ k c, stop + 1 - c ≤ k → multiCharFind v n stop mask skp c ≠ -1 →
      matchesAt v n (multiCharFind v n stop mask skp c).toNat = true := by
  intro k
  induction k with
  | zero =>
    intro c hk hne
    rw [multiCharFind, if_neg (by omega)] at hne
    exact absurd rfl hne
  | succ k ih =>
    intro c hk hne
    by_cases hg : c + n.length ≤ stop
    · by_cases ha : byteAt v (c + n.length - 1) = byteAt n (n.length - 1)
      · by_cases hp : (List.range (n.length - 1)).all
            (fun j => byteAt v (c + j) == byteAt n j) = true
        · rw [multiCharFind, if_pos hg, if_pos ha, if_pos hp]
          rw [Int.toNat_natCast]
          rw [matchesAt_iff hn]
          refine ⟨by omega, fun j hj => ?_⟩
          by_cases hjl : j < n.length - 1
          · exact (partial_all_iff v n c).1 hp j hjl
          · have : j = n.length - 1 := by omega
            subst this
            rwa [show c + (n.length - 1) = c + n.length - 1 by omega]
        · by_cases hb : c + n.length < v.length ∧
              bloomHit mask (byteAt v (c + n.length)) = 0
          · rw [multiCharFind, if_pos hg, if_pos ha, if_neg hp, if_pos hb] at hne ⊢
            exact ih (c + n.length + 1) (by omega) hne
          · rw [multiCharFind, if_pos hg, if_pos ha, if_neg hp, if_neg hb] at hne ⊢
            exact ih (c + skp + 1) (by omega) hne
      · by_cases hb : c + n.length < v.length ∧
            bloomHit mask (byteAt v (c + n.length)) = 0
        · rw [multiCharFind, if_pos hg, if_neg ha, if_pos hb] at hne ⊢
          exact ih (c + n.length + 1) (by omega) hne
        · rw [multiCharFind, if_pos hg, if_neg ha, if_neg hb] at hne ⊢
          exact ih (c + 1) (by omega) hne
    · rw [multiCharFind, if_neg hg] at hne
      exact absurd rfl hne

theorem memchrFind_matches (v n : List Nat) (hn : n.length = 1) (stop : Nat)
    (hsv : stop ≤ v.length) :
    ∀ k i, stop - i ≤ k → memchrFind v (byteAt n 0) i stop ≠ -1 →
      matchesAt v n (memchrFind v (byteAt n 0) i stop).toNat = true := by
  intro k
  induction k with
  | zero =>
    intro i hk hne
    rw [memchrFind, if_neg (by omega)] at hne
    exact absurd rfl hne
  | succ k ih =>
    intro i hk hne
    by_cases hg : i < stop
    · by_cases hb : byteAt v i = byteAt n 0
      · rw [memchrFind, if_pos hg, if_pos hb, Int.toNat_natCast]
        exact (matchesAt_single hn i).2 ⟨by omega, hb⟩
      · rw [memchrFind, if_pos hg, if_neg hb] at hne ⊢
        exact ih (i + 1) (by omega) hne
    · rw [memchrFind, if_neg hg] at hne
      exact absurd rfl hne

/-- A non-(-1) result of `find v n start none` (with a natural `start` and a
non-empty needle) is a match position between `start` and
`len(v) - len(n)`. -/
theorem find_result (v n : List Nat) (start : Nat) (hn : 1 ≤ n.length)
    (hne : find v n (start : Int) none ≠ -1) :
    (start : Int) ≤ find v n (start : Int) none ∧
      find v n (start : Int) none + n.length ≤ (v.length : Int) ∧
      matchesAt v n (find v n (start : Int) none).toNat = true := by
  have hform : find v n (start : Int) none =
      (if n.length = 1 then memchrFind v (byteAt n 0) start v.length
       else multiCharFind v n v.length (makeFindMask n).1 (makeFindMask n).2 start) ∨
      (find v n (start : Int) none = -1) := by
    simp only [find, pyStopOrLen]
    rw [if_neg (by omega : ¬((start : Int) < 0)),
      if_neg (by omega : ¬(((v.length : Nat) : Int) > ((v.length : Nat) : Int)))]
    by_cases hr : ((v.length : Nat) : Int) - (start : Int) < 0
    · rw [if_pos hr]
      exact Or.inr rfl
    · rw [if_neg hr, if_neg (by omega : ¬(n.length = 0))]
      by_cases h1 : n.length = 1
      · left
        rw [if_pos h1, if_pos h1, Int.toNat_natCast, Int.toNat_natCast]
      · left
        rw [if_neg h1, if_neg h1, Int.toNat_natCast, Int.toNat_natCast]
  rcases hform with hform | hform
  · rw [hform] at hne ⊢
    by_cases h1 : n.length = 1
    · rw [if_pos h1] at hne ⊢
      have hb := memchrFind_bounds v (byteAt n 0) (v.length + 1) start v.length
        (by omega) hne
      have hm := memchrFind_matches v n h1 v.length (le_refl _) (v.length + 1)
        start (by omega) hne
      exact ⟨hb.1, by omega, hm⟩
    · rw [if_neg h1] at hne ⊢
      have hb := multiCharFind_bounds v n v.length (makeFindMask n).1
        (makeFindMask n).2 (v.length + 1) start (by omega) hne
      have hm := multiCharFind_matches v n hn v.length (makeFindMask n).1
        (makeFindMask n).2 (le_refl _) (v.length + 1) start (by omega) hne
      exact ⟨hb.1, hb.2, hm⟩
  · exact absurd hform hne

theorem find_le (v b : List Nat) (start : Nat)
    (hne : find v b (start : Int) none ≠ -1) :
    (start : Int) ≤ find v b (start : Int) none ∧
      find v b (start : Int) none ≤ (v.length : Int) := by
  by_cases hb : 1 ≤ b.length
  · rcases find_result v b start hb hne with ⟨ha, hc, _⟩
    omega
  · have hb0 : b.length = 0 := by omega
    simp only [find, pyStopOrLen] at hne ⊢
    rw [if_neg (by omega : ¬((start : Int) < 0)),
      if_neg (by omega : ¬(((v.length : Nat) : Int) > ((v.length : Nat) : Int)))] at hne ⊢
    by_cases hr : ((v.length : Nat) : Int) - (start : Int) < 0
    · rw [if_pos hr] at hne
      exact absurd rfl hne
    · rw [if_neg hr, if_pos hb0] at hne ⊢
      omega

/-- Python slice `v[a:b]` of a view after `slice.indices(len(v))` clamping
with step 1 (`BufferView.__getitem__`): the sub-view `[a, b)`. -/
def pySlice (v : List Nat) (a b : Nat) : List Nat :=
  (v.drop (min a v.length)).take (min b v.length - min a v.length)

theorem pySlice_to_len (v : List Nat) (a : Nat) : pySlice v a v.length = v.drop a := by
  unfold pySlice
  by_cases h : a ≤ v.length
  · rw [Nat.min_eq_left h, Nat.min_self]
    apply List.take_of_length_le
    rw [List.length_drop]
  · rw [Nat.min_eq_right (show v.length ≤ a by omega), Nat.min_self, Nat.sub_self,
      List.take_zero, List.drop_eq_nil_of_le (show v.length ≤ a by omega)]

theorem pySlice_eq {v : List Nat} {a b : Nat} (hb : b ≤ v.length) (hab : a ≤ b) :
    pySlice v a b = (v.drop a).take (b - a) := by
  unfold pySlice
  rw [Nat.min_eq_left hb, Nat.min_eq_left (show a ≤ v.length by omega)]

/-- `BufferView._split_char` (zero_buffer.py 237-246, fast_buffer.py
279-288), with the generator run to exhaustion and the yields collected in
order: while `maxsplit != 0`, look for the separator from `start`; on -1
stop; otherwise yield `self[start:next]` and continue at `next + 1`;
finally yield `self[start:]`. -/
def splitCharAux (v b : List Nat) (maxsplit : Int) (start : Nat) : List (List Nat) :=
  if maxsplit = 0 then [pySlice v start v.length]
  else if h : find v b (start : Int) none = -1 then [pySlice v start v.length]
  else pySlice v start (find v b (start : Int) none).toNat ::
    splitCharAux v b (maxsplit - 1) ((find v b (start : Int) none).toNat + 1)
termination_by v.length + 1 - start
decreasing_by
  have hr := find_le v b start h
  omega

/-- `BufferView._split_multi_char` (zero_buffer.py 248-258, fast_buffer.py
290-300), with the generator run to exhaustion: the caller precomputes one
mask/skip pair which every round of
`_multi_char_find(by, start, len(self), mask, skip)` reuses; the loop
stops when the result is negative and advances by `len(by)` past each
hit.  The separator has at least two bytes whenever this runs (`split`
dispatches one-byte separators to `_split_char`); `hb` records that. -/
def splitMultiAux (v b : List Nat) (hb : 2 ≤ b.length) (mask skp : Nat)
    (maxsplit : Int) (start : Nat) : List (List Nat) :=
  if maxsplit = 0 then [pySlice v start v.length]
  else if h : multiCharFind v b v.length mask skp start < 0 then
    [pySlice v start v.length]
  else pySlice v start (multiCharFind v b v.length mask skp start).toNat ::
    splitMultiAux v b hb mask skp (maxsplit - 1)
      ((multiCharFind v b v.length mask skp start).toNat + b.length)
termination_by v.length + 1 - start
decreasing_by
  have hr := multiCharFind_bounds v b v.length mask skp (v.length + 1) start
    (by omega) (by omega)
  omega

/-- `BufferView.split` (zero_buffer.py 229-235, fast_buffer.py 271-277):
an empty separator raises `ValueError` (modelled as `.error ()`); a
one-byte separator uses `_split_char`; otherwise `_split_multi_char` with
the precomputed mask/skip pair. -/
def split (v b : List Nat) (maxsplit : Int) : Except Unit (List (List Nat)) :=
  if h0 : b.length = 0 then .error ()
  else if h1 : b.length = 1 then .ok (splitCharAux v b maxsplit 0)
  else .ok (splitMultiAux v b (by omega) (makeFindMask b).1 (makeFindMask b).2
    maxsplit 0)

theorem intercalate_cons (s a : List Nat) (ps : List (List Nat)) (h : ps ≠ []) :
    List.intercalate s (a :: ps) = a ++ s ++ List.intercalate s ps := by
  rcases ps with _ | ⟨p, ps⟩
  · exact absurd rfl h
  · simp [List.intercalate, List.intersperse]

theorem getLastD_ne_nil (l : List (List Nat)) (a : List Nat) (h : l ≠ []) :
    l.getLastD a = l.getLastD [] := by
  rcases l with _ | ⟨x, xs⟩
  · exact absurd rfl h
  · rw [List.getLastD_cons, List.getLastD_cons]

theorem drop_eq_slice_cat (v b : List Nat) (start nxt : Nat) (hs : start ≤ nxt)
    (hn : nxt + b.length ≤ v.length) (hsep : (v.drop nxt).take b.length = b) :
    v.drop start = pySlice v start nxt ++ (b ++ v.drop (nxt + b.length)) := by
  rw [pySlice_eq (by omega) hs]
  have e3 : v.drop nxt = b ++ v.drop (nxt + b.length) := by
    conv_lhs => rw [← List.take_append_drop b.length (v.drop nxt)]
    rw [hsep, List.drop_drop]
  calc v.drop start
      = (v.drop start).take (nxt - start) ++ (v.drop start).drop (nxt - start) :=
        (List.take_append_drop _ _).symm
    _ = (v.drop start).take (nxt - start) ++ v.drop nxt := by
        rw [List.drop_drop, show start + (nxt - start) = nxt by omega]
    _ = (v.drop start).take (nxt - start) ++ (b ++ v.drop (nxt + b.length)) := by
        rw [e3]

theorem splitCharAux_reconstruct (v b : List Nat) (hb : b.length = 1) :
    ∀ k start maxsplit, v.length + 1 - start ≤ k → start ≤ v.length →
      splitCharAux v b maxsplit start ≠ [] ∧
      List.intercalate b (splitCharAux v b maxsplit start) = v.drop start ∧
      ∃ j, start ≤ j ∧ j ≤ v.length ∧
        (splitCharAux v b maxsplit start).getLastD [] = v.drop j := by
  intro k
  induction k with
  | zero =>
    intro start ms hk hs
    exfalso
    omega
  | succ k ih =>
    intro start ms hk hs
    have hbase : ([pySlice v start v.length] : List (List Nat)) ≠ [] ∧
        List.intercalate b [pySlice v start v.length] = v.drop start ∧
        ∃ j, start ≤ j ∧ j ≤ v.length ∧
          ([pySlice v start v.length] : List (List Nat)).getLastD [] = v.drop j := by
      refine ⟨by simp, ?_, ⟨start, le_refl _, hs, by simp [pySlice_to_len]⟩⟩
      simp [List.intercalate, List.intersperse, pySlice_to_len]
    by_cases h0 : ms = 0
    · rw [splitCharAux, if_pos h0]
      exact hbase
    · by_cases hfe : find v b (start : Int) none = -1
      · rw [splitCharAux, if_neg h0, dif_pos hfe]
        exact hbase
      · rw [splitCharAux, if_neg h0, dif_neg hfe]
        rcases find_result v b start (by omega) hfe with ⟨hr1, hr2, hr3⟩
        set nxt := (find v b (start : Int) none).toNat with hnxt
        rcases ih (nxt + 1) (ms - 1) (by omega) (by omega) with
          ⟨ihne, ihcat, j, hj1, hj2, hj3⟩
        have hsep : (v.drop nxt).take b.length = b := by
          unfold matchesAt at hr3
          exact beq_iff_eq.1 hr3
        have hchain := drop_eq_slice_cat v b start nxt (by omega) (by omega) hsep
        rw [show nxt + b.length = nxt + 1 by omega] at hchain
        refine ⟨by simp, ?_, ⟨j, by omega, hj2, ?_⟩⟩
        · rw [intercalate_cons _ _ _ ihne, ihcat, List.append_assoc]
          exact hchain.symm
        · rw [List.getLastD_cons, getLastD_ne_nil _ _ ihne]
          exact hj3

theorem splitMultiAux_reconstruct (v b : List Nat) (hb : 2 ≤ b.length)
    (mask skp : Nat) :
    ∀ k start maxsplit, v.length + 1 - start ≤ k → start ≤ v.length →
      splitMultiAux v b hb mask skp maxsplit start ≠ [] ∧
      List.intercalate b (splitMultiAux v b hb mask skp maxsplit start) =
        v.drop start ∧
      ∃ j, start ≤ j ∧ j ≤ v.length ∧
        (splitMultiAux v b hb mask skp maxsplit start).getLastD [] = v.drop j := by
  intro k
  induction k with
  | zero =>
    intro start ms hk hs
    exfalso
    omega
  | succ k ih =>
    intro start ms hk hs
    have hbase : ([pySlice v start v.length] : List (List Nat)) ≠ [] ∧
        List.intercalate b [pySlice v start v.length] = v.drop start ∧
        ∃ j, start ≤ j ∧ j ≤ v.length ∧
          ([pySlice v start v.length] : List (List Nat)).getLastD [] = v.drop j := by
      refine ⟨by simp, ?_, ⟨start, le_refl _, hs, by simp [pySlice_to_len]⟩⟩
      simp [List.intercalate, List.intersperse, pySlice_to_len]
    by_cases h0 : ms = 0
    · rw [splitMultiAux, if_pos h0]
      exact hbase
    · by_cases hfe : multiCharFind v b v.length mask skp start < 0
      · rw [splitMultiAux, if_neg h0, dif_pos hfe]
        exact hbase
      · rw [splitMultiAux, if_neg h0, dif_neg hfe]
        have hne : multiCharFind v b v.length mask skp start ≠ -1 := by omega
        rcases multiCharFind_bounds v b v.length mask skp (v.length + 1) start
          (by omega) hne with ⟨hr1, hr2⟩
        have hr3 := multiCharFind_matches v b (by omega) v.length mask skp
          (le_refl _) (v.length + 1) start (by omega) hne
        set nxt := (multiCharFind v b v.length mask skp start).toNat with hnxt
        rcases ih (nxt + b.length) (ms - 1) (by omega) (by omega) with
          ⟨ihne, ihcat, j, hj1, hj2, hj3⟩
        have hsep : (v.drop nxt).take b.length = b := by
          unfold matchesAt at hr3
          exact beq_iff_eq.1 hr3
        have hchain := drop_eq_slice_cat v b start nxt (by omega) (by omega) hsep
        refine ⟨by simp, ?_, ⟨j, by omega, hj2, ?_⟩⟩
        · rw [intercalate_cons _ _ _ ihne, ihcat, List.append_assoc]
          exact hchain.symm
        · rw [List.getLastD_cons, getLastD_ne_nil _ _ ihne]
          exact hj3

/-- Bytes `b < 256` for which Python `chr(b).isspace()` is true: the ASCII
whitespace bytes 9-13 and 32, the information separators 28-31, and the
latin-1 code points 0x85 (U+0085 NEL) and 0xA0 (U+00A0 NBSP).
`_strip_none` in both sources classifies bytes with
`chr(ch).isspace()`, so this — not the ASCII-only predicate of the
`isspace()` method — is the predicate it trims with. -/
def pyIsSpaceByte (b : Nat) : Bool :=
  b == 32 || (9 ≤ b && b ≤ 13) || (28 ≤ b && b ≤ 31) || b == 133 || b == 160

/-- The ASCII whitespace predicate named by the specification: byte 32 or
a byte in [9, 13].  This is what the `isspace()` *method*
(zero_buffer.py 354-360, fast_buffer.py 339-345) tests. -/
def asciiSpace (b : Nat) : Bool := b == 32 || (9 ≤ b && b ≤ 13)

/-- Left cursor loop of `zero_buffer.BufferView._strip_none` (382-384):
`while lpos < rpos and chr(self[lpos]).isspace(): lpos += 1`. -/
def stripLPos (v : List Nat) (lpos rpos : Nat) : Nat :=
  if lpos < rpos ∧ pyIsSpaceByte (byteAt v lpos) = true then
    stripLPos v (lpos + 1) rpos
  else lpos
termination_by rpos - lpos
decreasing_by omega

/-- Right cursor loop of `zero_buffer.BufferView._strip_none` (386-388):
`while rpos > lpos and chr(self[rpos - 1]).isspace(): rpos -= 1`. -/
def stripRPos (v : List Nat) (lpos rpos : Nat) : Nat :=
  if rpos > lpos ∧ pyIsSpaceByte (byteAt v (rpos - 1)) = true then
    stripRPos v lpos (rpos - 1)
  else rpos
termination_by rpos
decreasing_by omega

/-- `zero_buffer.BufferView._strip_none` (378-389): run the left cursor
(when `left`), then the right cursor down to it (when `right`), and
return `self[lpos:rpos]`. -/
def stripNone (v : List Nat) ( left right : Bool) : List Nat :=
  let lpos := if left then stripLPos v 0 v.length else 0
  let rpos := if right then stripRPos v lpos v.length else v.length
  pySlice v lpos rpos

/-- Forward cursor loop of `fast_buffer._BaseBufferView._strip_none`
(122-130) over a contiguous `BufferView`, with the iterator of 512-537:
`lpos._idx` starts at 0, `next` reads `v[idx]` then increments, `_prev`
decrements, and the loop breaks (after `_prev`) at the first non-space
byte or when the cursors meet.  `StopIteration` cannot fire while
`li < ri ≤ len v`. -/
def fsLPos (v : List Nat) (li ri : Nat) : Nat :=
  if li < ri then
    (if pyIsSpaceByte (byteAt v li) = true then fsLPos v (li + 1) ri else li)
  else li
termination_by ri - li
decreasing_by omega

/-- Backward cursor loop of `fast_buffer._BaseBufferView._strip_none`
(132-140) over a contiguous `BufferView`, with the reversed iterator of
539-562: `rpos._idx` starts at `len v`, `next` decrements then reads
`v[idx]`, `_prev` increments. -/
def fsRPos (v : List Nat) (li ri : Nat) : Nat :=
  if ri > li then
    (if pyIsSpaceByte (byteAt v (ri - 1)) = true then fsRPos v li (ri - 1) else ri)
  else ri
termination_by ri
decreasing_by omega

/-- `fast_buffer._BaseBufferView._strip_none` (118-141) specialised to a
contiguous `BufferView`; `_slice_from_iterators` (247-248) returns
`self[lpos._idx:rpos._idx]`. -/
def stripNoneFast (v : List Nat) ( left right : Bool) : List Nat :=
  let li := if left then fsLPos v 0 v.length else 0
  let ri := if right then fsRPos v li v.length else v.length
  pySlice v li ri

theorem fsLPos_eq (v : List Nat) : ∀ k li ri, ri - li ≤ k →
    fsLPos v li ri = stripLPos v li ri := by
  intro k
  induction k with
  | zero =>
    intro li ri hk
    rw [fsLPos, stripLPos, if_neg (by omega)]
    rw [if_neg (by omega)]
  | succ k ih =>
    intro li ri hk
    by_cases h1 : li < ri
    · by_cases h2 : pyIsSpaceByte (byteAt v li) = true
      · rw [fsLPos, if_pos h1, if_pos h2, stripLPos, if_pos ⟨h1, h2⟩]
        exact ih (li + 1) ri (by omega)
      · rw [fsLPos, if_pos h1, if_neg h2, stripLPos, if_neg (by tauto)]
    · rw [fsLPos, if_neg h1, stripLPos, if_neg (by tauto)]

theorem fsRPos_eq (v : List Nat) (li : Nat) : ∀ ri,
    fsRPos v li ri = stripRPos v li ri := by
  intro ri
  induction ri using Nat.strong_induction_on with
  | _ ri ih =>
    by_cases h1 : ri > li
    · by_cases h2 : pyIsSpaceByte (byteAt v (ri - 1)) = true
      · rw [fsRPos, if_pos h1, if_pos h2, stripRPos, if_pos ⟨h1, h2⟩]
        exact ih (ri - 1) (by omega)
      · rw [fsRPos, if_pos h1, if_neg h2, stripRPos, if_neg (by tauto)]
    · rw [fsRPos, if_neg h1, stripRPos, if_neg (by tauto)]

theorem stripLPos_bounds (v : List Nat) : ∀ k lpos rpos, rpos - lpos ≤ k →
    lpos ≤ stripLPos v lpos rpos ∧ stripLPos v lpos rpos ≤ max lpos rpos := by
  intro k
  induction k with
  | zero =>
    intro lpos rpos hk
    rw [stripLPos, if_neg (by omega)]
    omega
  | succ k ih =>
    intro lpos rpos hk
    by_cases h : lpos < rpos ∧ pyIsSpaceByte (byteAt v lpos) = true
    · rw [stripLPos, if_pos h]
      have := ih (lpos + 1) rpos (by omega)
      omega
    · rw [stripLPos, if_neg h]
      omega

theorem stripRPos_bounds (v : List Nat) (lpos : Nat) : ∀ rpos,
    min lpos rpos ≤ stripRPos v lpos rpos ∧ stripRPos v lpos rpos ≤ rpos := by
  intro rpos
  induction rpos using Nat.strong_induction_on with
  | _ rpos ih =>
    by_cases h : rpos > lpos ∧ pyIsSpaceByte (byteAt v (rpos - 1)) = true
    · rw [stripRPos, if_pos h]
      have := ih (rpos - 1) (by omega)
      omega
    · rw [stripRPos, if_neg h]
      omega

theorem stripLPos_drop (v : List Nat) : ∀ k l, v.length - l ≤ k → l ≤ v.length →
    v.drop (stripLPos v l v.length) =
      List.dropWhile pyIsSpaceByte (v.drop l) := by
  intro k
  induction k with
  | zero =>
    intro l hk hl
    have hle : l = v.length := by omega
    rw [stripLPos, if_neg (by omega), hle, List.drop_length]
    rfl
  | succ k ih =>
    intro l hk hl
    by_cases h1 : l < v.length
    · have hcons : v.drop l = v[l] :: v.drop (l + 1) := List.drop_eq_getElem_cons h1
      by_cases h2 : pyIsSpaceByte (byteAt v l) = true
      · rw [stripLPos, if_pos ⟨h1, h2⟩, ih (l + 1) (by omega) (by omega), hcons,
          List.dropWhile_cons_of_pos]
        rwa [byteAt_eq_getElem h1] at h2
      · rw [stripLPos, if_neg (by tauto), hcons, List.dropWhile_cons_of_neg, ← hcons]
        rw [byteAt_eq_getElem h1] at h2
        simp [h2]
    · have hle : l = v.length := by omega
      rw [stripLPos, if_neg (by omega), hle, List.drop_length]
      rfl

theorem stripRPos_slice (v : List Nat) (l : Nat) (hlv : l ≤ v.length) : ∀ r,
    l ≤ r → r ≤ v.length →
      pySlice v l (stripRPos v l r) =
        List.rdropWhile pyIsSpaceByte (pySlice v l r) := by
  intro r
  induction r using Nat.strong_induction_on with
  | _ r ih =>
    intro hlr hrv
    by_cases h1 : r > l
    · have hsnoc : pySlice v l r = pySlice v l (r - 1) ++ [byteAt v (r - 1)] := by
        rw [pySlice_eq hrv hlr, pySlice_eq (by omega) (by omega)]
        have : r - l = (r - 1 - l) + 1 := by omega
        rw [this, List.take_succ]
        congr 1
        have hb : r - 1 - l < (v.drop l).length := by
          rw [List.length_drop]; omega
        rw [List.getElem?_eq_getElem hb]
        simp only [Option.toList_some, List.getElem_drop]
        rw [byteAt_eq_getElem (show r - 1 < v.length by omega)]
        congr 2
        omega
      by_cases h2 : pyIsSpaceByte (byteAt v (r - 1)) = true
      · rw [stripRPos, if_pos ⟨h1, h2⟩, ih (r - 1) (by omega) (by omega) (by omega),
          hsnoc, List.rdropWhile_concat, if_pos h2]
      · rw [stripRPos, if_neg (by tauto), hsnoc, List.rdropWhile_concat, if_neg, ← hsnoc]
        simp [h2]
    · have hlr2 : l = r := by omega
      rw [stripRPos, if_neg (by tauto), ← hlr2]
      have : pySlice v l l = [] := by
        rw [pySlice_eq (by omega) (by omega), Nat.sub_self, List.take_zero]
      rw [this]
      rfl

/-- A view as the triple the sources store: the owning block
(`_keepalive`, modelled by an id into a memory environment), the byte
offset of `_data` inside the block, and `_length`. -/
structure MView where
  blockId : Nat
  off : Nat
  len : Nat
deriving DecidableEq

/-- The bytes a view exposes, given the memory environment that assigns
each block id its byte contents. -/
def viewBytes (mem : Nat → List Nat) (w : MView) : List Nat :=
  ((mem w.blockId).drop w.off).take w.len

/-- `zero_buffer.BufferCollator` state: the retained views and
`_total_length`. -/
structure BufferCollator where
  views : List MView
  totalLength : Nat

/-- `BufferCollator.append` (zero_buffer.py 437-454): when the appended
view is byte-adjacent to the last retained view in the same block
(`last._keepalive is view._keepalive and last._data + len(last) ==
view._data`), replace the last view by the merged
`BufferView(last._keepalive, last._data, 0, len(last) + len(view))`;
else append; always add `len(view)` to the total length. -/
def BufferCollator.append (c : BufferCollator) (w : MView) : BufferCollator :=
  match c.views.getLast? with
  | some lastV =>
    if lastV.blockId = w.blockId ∧ lastV.off + lastV.len = w.off then
      ⟨c.views.dropLast ++ [⟨lastV.blockId, lastV.off, lastV.len + w.len⟩],
        c.totalLength + w.len⟩
    else ⟨c.views ++ [w], c.totalLength + w.len⟩
  | none => ⟨[w], c.totalLength + w.len⟩

/-- Result of `BufferCollator.collapse` (zero_buffer.py 456-468): either
the single retained view handed back unchanged (zero copy), or a view
over a freshly allocated buffer holding the given copied bytes. -/
inductive CollapseResult where
  | reused (w : MView)
  | fresh (data : List Nat)
deriving DecidableEq

/-- `BufferCollator.collapse` (zero_buffer.py 456-468): one retained view
is returned as is; otherwise a new buffer of `_total_length` bytes is
allocated, every retained view's bytes are `memcpy`-ed into it in order,
and a view over the whole new buffer is returned.  Both branches clear
the view list and zero the total length. -/
def BufferCollator.collapse (mem : Nat → List Nat) (c : BufferCollator) :
    CollapseResult × BufferCollator :=
  if c.views.length = 1 then
    (.reused (c.views.getD 0 ⟨0, 0, 0⟩), ⟨[], 0⟩)
  else
    (.fresh (c.views.map (viewBytes mem)).flatten, ⟨[], 0⟩)

/-- The bytes an observer reads from a collapse result. -/
def collapseBytes (mem : Nat → List Nat) : CollapseResult → List Nat
  | .reused w => viewBytes mem w
  | .fresh data => data

/-- `zero_buffer.BufferView.__add__` (164-171): always goes through a
fresh collator, so the result is a single view — merged in place when the
operands are adjacent, freshly copied otherwise. -/
def zbAdd (mem : Nat → List Nat) (l r : MView) : CollapseResult :=
  ((((⟨[], 0⟩ : BufferCollator).append l).append r).collapse mem).1

/-- Result type of `fast_buffer.BufferView.__add__`: a plain view or a
`BufferGroup` of views. -/
inductive ViewOrGroup where
  | single (w : MView)
  | group (ws : List MView)
deriving DecidableEq

/-- `fast_buffer.BufferView.__add__` (236-245): a merged view over the
combined range when `self._keepalive is other._keepalive and
self._data + len(self) == other._data`, else
`BufferGroup([self, other])`. -/
def fbAdd (l r : MView) : ViewOrGroup :=
  if l.blockId = r.blockId ∧ l.off + l.len = r.off then
    .single ⟨l.blockId, l.off, l.len + r.len⟩
  else .group [l, r]

/-- A pooled `fast_buffer.Buffer`, projected to its write cursor (the only
block state the pool claims observe; `release` resets it and
`Buffer.__init__` zeroes it). -/
structure PoolBuf where
  writepos : Nat
deriving DecidableEq

/-- `fast_buffer.BufferPool` (30-52): `capacity` plus the filled prefix of
`_freelist` (its length is `_num_free`), kept as a stack whose head is
the slot at index `_num_free - 1`. -/
structure BufferPool where
  capacity : Nat
  freelist : List PoolBuf
deriving DecidableEq

/-- `BufferPool.__init__` (31-35): pre-allocate `capacity` fresh blocks. -/
def BufferPool.init (capacity : Nat) : BufferPool :=
  ⟨capacity, List.replicate capacity ⟨0⟩⟩

/-- `BufferPool.buffer` (40-47): pop the block at index `_num_free - 1`
(blanking its slot), or create a fresh block when none is free. -/
def BufferPool.buffer (p : BufferPool) : PoolBuf × BufferPool :=
  match p.freelist with
  | [] => (⟨0⟩, p)
  | b :: rest => (b, ⟨p.capacity, rest⟩)

/-- `BufferPool.return_buffer` (49-52): store the block and bump
`_num_free` only while `_num_free != capacity`; else drop it. -/
def BufferPool.returnBuffer (p : BufferPool) (b : PoolBuf) : BufferPool :=
  if p.freelist.length ≠ p.capacity then ⟨p.capacity, b :: p.freelist⟩ else p

/-- One `acquire()` immediately followed by `release()`:
`Buffer.release` (fast_buffer.py 85-87) zeroes `_writepos` and then
returns the very block to the pool. -/
def acquireReleaseStep (p : BufferPool) : BufferPool :=
  (p.buffer).2.returnBuffer ⟨0⟩

/-- `k` rounds of `acquire(); release()` from a fresh pool. -/
def poolSteps (capacity : Nat) : Nat → BufferPool
  | 0 => BufferPool.init capacity
  | k + 1 => acquireReleaseStep (poolSteps capacity k)

/-- A block for `add_bytes`: the backing array contents (`len(data)` is
the capacity) and the write cursor. -/
structure RawBuffer where
  data : List Nat
  writepos : Nat
deriving DecidableEq

/-- `free = capacity - writepos` (zero_buffer.py 73-75). -/
def RawBuffer.free (b : RawBuffer) : Nat := b.data.length - b.writepos

/-- The copy loop of `add_bytes`: `for i in xrange(bytes_written):
self._data[self.writepos] = b[i]; self._writepos += 1`, iterated the
given number of times starting at source index `i`. -/
def addLoop (src : List Nat) : Nat → List Nat → Nat → Nat → List Nat × Nat
  | 0, data, wp, _ => (data, wp)
  | k + 1, data, wp, i => addLoop src k (data.set wp (src.getD i 0)) (wp + 1) (i + 1)

/-- `Buffer.add_bytes` (zero_buffer.py 88-95; fast_buffer.py 100-107 is
identical): `BufferFull` when `not self.free`, otherwise copy
`min(len(b), free)` bytes at the write cursor and return the count. -/
def addBytes (buf : RawBuffer) (b : List Nat) : Except Unit (Nat × RawBuffer) :=
  if buf.free = 0 then .error ()
  else
    let bw := min b.length buf.free
    let r := addLoop b bw buf.data buf.writepos 0
    .ok (bw, ⟨r.1, r.2⟩)

/-- The values a view can be compared against, as `__eq__` distinguishes
them: another view, a `bytes` object, any other object that has a length,
or an object with no `len()` at all. -/
inductive PyValue where
  | view (w : MView)
  | bytes (b : List Nat)
  | sized (otherLen : Nat)
  | unsized
deriving DecidableEq

/-- Outcome of `BufferView.__eq__`: a boolean, `NotImplemented`, or a
`TypeError` escaping from `len(other)`. -/
inductive EqResult where
  | bool (b : Bool)
  | notImplemented
  | typeError
deriving DecidableEq

/-- `len(other)` for the values above; `none` models the `TypeError`
Python raises for objects with no length. -/
def pyLenOf (o : PyValue) : Option Nat :=
  match o with
  | .view w => some w.len
  | .bytes b => some b.length
  | .sized otherLen => some otherLen
  | .unsized => none

/-- `BufferView.__eq__` (zero_buffer.py 130-141; fast_buffer.py 199-210 is
identical): first `len(self) != len(other)` (whose `len(other)` raises
`TypeError` for unsized values), then `memcmp` over `len(self)` bytes for
another view, a per-byte loop for `bytes`, and `NotImplemented` for
everything else. -/
def viewEq (mem : Nat → List Nat) (v : MView) (o : PyValue) : EqResult :=
  match pyLenOf o with
  | none => .typeError
  | some n =>
    if v.len ≠ n then .bool false
    else
      match o with
      | .view w => .bool (viewBytes mem v == viewBytes mem w)
      | .bytes b => .bool (viewBytes mem v == b)
      | _ => .notImplemented

/-- The member-walking loop of `fast_buffer.BufferGroup.find` (460-477)
for a one-byte needle: for each member view, `view_start` is `start` when
`start < len(view)` else 0 (the absolute `start` is reused as a local
offset in every member), `view_stop` is `stop - overall_pos` when
`stop < overall_pos + len(view)` else `None`, and a hit's local offset is
translated back by `overall_pos`. -/
def bgFindLoop (needle : List Nat) (start stop : Int) :
    List (List Nat) → Int → Int
  | [], _ => -1
  | w :: rest, overall =>
    let vstart : Int := if start < (w.length : Int) then start else 0
    let vstop : Option Int :=
      if stop < overall + w.length then some (stop - overall) else none
    let pos := find w needle vstart vstop
    if pos ≠ -1 then overall + pos
    else bgFindLoop needle start stop rest (overall + w.length)

/-- `fast_buffer.BufferGroup.find` (449-479): the same clamping prelude as
the view `find`, `start` for the empty needle, the member walk for a
one-byte needle, and `NotImplementedError` (modelled as `.error ()`) for
longer needles. -/
def bgFind (views : List (List Nat)) (needle : List Nat) (start : Int)
    (stopOpt : Option Int) : Except Unit Int :=
  let L := (views.map List.length).sum
  let stop0 := pyStopOrLen stopOpt L
  let start1 : Int := if start < 0 then 0 else start
  let stop1 : Int := if stop0 > (L : Int) then (L : Int) else stop0
  if stop1 - start1 < 0 then .ok (-1)
  else if needle.length = 0 then .ok start1
  else if needle.length = 1 then .ok (bgFindLoop needle start1 stop1 views 0)
  else .error ()

/-- Python list indexing `views[i]` with a possibly negative index, which
wraps once from the end (`views[-1]` is the final member); an
out-of-range read raises `IndexError` in Python and defaults to `[]`
here (no use below reads out of range on the inputs it receives). -/
def pyViewsGet (views : List (List Nat)) (i : Int) : List Nat :=
  if i < 0 then views.getD (i + views.length).toNat []
  else views.getD i.toNat []

/-- One endpoint of a Python step-1 slice of a length-`n` sequence, after
the normalisation `slice.indices(n)` performs: a negative endpoint is
shifted by `n`, and the result is clamped into `[0, n]`. -/
def pySliceIdx (n : Nat) (i : Int) : Nat :=
  if i < 0 then (if i + (n : Int) < 0 then 0 else (i + (n : Int)).toNat)
  else (if (n : Int) < i then n else i.toNat)

/-- A Python step-1 slice `v[a:b]` with integer endpoints, via
`pySliceIdx`; agrees with `pySlice` on in-range natural endpoints. -/
def pySliceI (v : List Nat) (a b : Int) : List Nat :=
  (v.drop (pySliceIdx v.length a)).take
    (pySliceIdx v.length b - pySliceIdx v.length a)

/-- `fast_buffer._BufferGroupIterator.__next__` (575-588) on the state
`(_view_idx, _buf_idx) = (vi, bi)`: reading `views[_view_idx]` past the
end raises `StopIteration` (`none`, with the state the raise leaves
behind); a spent member (`_buf_idx` past its end) advances to
`(_view_idx + 1, 0)` and retries; otherwise the byte at `_buf_idx` is
returned and `_buf_idx` incremented.  Both indices start at 0 and are
never driven negative, so they are naturals. -/
def bgNext (views : List (List Nat)) (vi bi : Nat) : Option Nat × Nat × Nat :=
  if vi < views.length then
    (if bi < (views.getD vi []).length then
      (some (byteAt (views.getD vi []) bi), vi, bi + 1)
    else bgNext views (vi + 1) 0)
  else (none, vi, bi)
termination_by views.length - vi
decreasing_by omega

theorem bgNext_some (views : List (List Nat)) : ∀ k vi bi ch vi2 bi2,
    views.length - vi ≤ k → bgNext views vi bi = (some ch, vi2, bi2) →
    vi < views.length ∧
      ((vi2 = vi ∧ bi2 = bi + 1 ∧ bi < (views.getD vi []).length) ∨ vi < vi2) := by
  intro k
  induction k with
  | zero =>
    intro vi bi ch vi2 bi2 hk he
    rw [bgNext, if_neg (by omega)] at he
    exact absurd (congrArg Prod.fst he) (by simp)
  | succ k ih =>
    intro vi bi ch vi2 bi2 hk he
    rw [bgNext] at he
    by_cases h1 : vi < views.length
    · rw [if_pos h1] at he
      by_cases h2 : bi < (views.getD vi []).length
      · rw [if_pos h2] at he
        rw [Prod.mk.injEq, Prod.mk.injEq] at he
        exact ⟨h1, .inl ⟨he.2.1.symm, he.2.2.symm, h2⟩⟩
      · rw [if_neg h2] at he
        have hres := ih (vi + 1) 0 ch vi2 bi2 (by omega) he
        refine ⟨h1, .inr ?_⟩
        rcases hres.2 with h3 | h3 <;> omega
    · rw [if_neg h1] at he
      exact absurd (congrArg Prod.fst he) (by simp)

/-- `fast_buffer._ReversedBufferGroupIterator.__next__` (625-635) on the
state `(_view_idx, _buf_idx) = (vi, bi)` (both integers, as they go
negative): `StopIteration` once `_view_idx` is negative; a spent member
(`_buf_idx < 0`) rolls back to
`(_view_idx - 1, len(views[_view_idx - 1]) - 1)` and retries (the
negative list indexing in that length read wraps, harmlessly, when
`_view_idx` reaches -1, since the retry then raises); otherwise the byte
at `_buf_idx` is returned and `_buf_idx` decremented. -/
def bgRNext (views : List (List Nat)) (vi bi : Int) : Option Nat × Int × Int :=
  if vi < 0 then (none, vi, bi)
  else if bi < 0 then
    bgRNext views (vi - 1) (((pyViewsGet views (vi - 1)).length : Int) - 1)
  else (some (byteAt (pyViewsGet views vi) bi.toNat), vi, bi - 1)
termination_by (vi + 1).toNat
decreasing_by omega

theorem bgRNext_some (views : List (List Nat)) : ∀ k vi bi ch vi2 bi2,
    (vi + 1).toNat ≤ k → bgRNext views vi bi = (some ch, vi2, bi2) →
    0 ≤ vi ∧ ((vi2 = vi ∧ bi2 = bi - 1 ∧ 0 ≤ bi) ∨ vi2 < vi) := by
  intro k
  induction k with
  | zero =>
    intro vi bi ch vi2 bi2 hk he
    rw [bgRNext, if_pos (by omega)] at he
    exact absurd (congrArg Prod.fst he) (by simp)
  | succ k ih =>
    intro vi bi ch vi2 bi2 hk he
    rw [bgRNext] at he
    by_cases h1 : vi < 0
    · rw [if_pos h1] at he
      exact absurd (congrArg Prod.fst he) (by simp)
    · rw [if_neg h1] at he
      by_cases h2 : bi < 0
      · rw [if_pos h2] at he
        have hres := ih (vi - 1) _ ch vi2 bi2 (by omega) he
        refine ⟨by omega, .inr ?_⟩
        rcases hres.2 with h3 | h3 <;> omega
      · rw [if_neg h2] at he
        rw [Prod.mk.injEq, Prod.mk.injEq] at he
        exact ⟨by omega, .inl ⟨he.2.1.symm, he.2.2.symm, by omega⟩⟩

/-- `fast_buffer._BufferGroupIterator._prev` (593-598) as `_strip_none`
invokes it: always directly after a successful `next`, so `_buf_idx ≥ 1`
and only the `else` branch (`_buf_idx -= 1`) can run.  (The
`_buf_idx == 0` branch would in fact raise `AttributeError`: it reads
`self.buffer_group`, but the attribute is named `_buffer_group`.) -/
def bgIterPrev (vi bi : Nat) : Nat × Nat := (vi, bi - 1)

/-- `fast_buffer._ReversedBufferGroupIterator._prev` (640-645): stepping
back over a member boundary (`_buf_idx == len(views[_view_idx]) - 1`)
moves to `(_view_idx + 1, 0)`; otherwise `_buf_idx += 1`. -/
def bgRIterPrev (views : List (List Nat)) (vi bi : Int) : Int × Int :=
  if bi = ((pyViewsGet views vi).length : Int) - 1 then (vi + 1, 0)
  else (vi, bi + 1)

/-- The left cursor loop of `fast_buffer._BaseBufferView._strip_none`
(122-130) over a `BufferGroup`: while `lpos < rpos`
(`_BufferGroupIterator.__lt__`, 608-615, which by Python operator
precedence reads, for two iterators over the same group,
`view_idx < view_idx OR (view_idx == view_idx AND buf_idx < buf_idx)`),
take the next byte — breaking on `StopIteration` with the state the
raise left behind — and at the first byte failing `chr(ch).isspace()`
step back with `_prev` and break. -/
def bgStripL (views : List (List Nat)) (rvi rbi : Int) (lvi lbi : Nat) :
    Nat × Nat :=
  if ((lvi : Int) < rvi ∨ ((lvi : Int) = rvi ∧ (lbi : Int) < rbi)) then
    match h : bgNext views lvi lbi with
    | (none, vi2, bi2) => (vi2, bi2)
    | (some ch, vi2, bi2) =>
      if pyIsSpaceByte ch = true then bgStripL views rvi rbi vi2 bi2
      else bgIterPrev vi2 bi2
  else (lvi, lbi)
termination_by (views.length - lvi, (views.getD lvi []).length + 1 - lbi)
decreasing_by
  rcases bgNext_some views views.length lvi lbi ch vi2 bi2 (by omega) h with
    ⟨hv, ⟨h1, h2, h3⟩ | h1⟩
  · rw [h1]
    exact Prod.Lex.right _ (by omega)
  · exact Prod.Lex.left _ _ (by omega)

/-- The right cursor loop of `fast_buffer._BaseBufferView._strip_none`
(132-140) over a `BufferGroup`: while `rpos > lpos` — which
`functools.total_ordering` derives as the conjoined negations of
`rpos < lpos` (`_ReversedBufferGroupIterator.__lt__`, 654-661) and of
`rpos == lpos` (647-652) — take the next byte from the reversed
iterator, breaking on `StopIteration`, and at the first byte failing
`chr(ch).isspace()` step back with `_prev` and break. -/
def bgStripR (views : List (List Nat)) (lvi lbi : Nat) (rvi rbi : Int) :
    Int × Int :=
  if (¬(rvi < (lvi : Int) ∨ (rvi = (lvi : Int) ∧ rbi < (lbi : Int))) ∧
      ¬(rvi = (lvi : Int) ∧ rbi = (lbi : Int))) then
    match h : bgRNext views rvi rbi with
    | (none, vi2, bi2) => (vi2, bi2)
    | (some ch, vi2, bi2) =>
      if pyIsSpaceByte ch = true then bgStripR views lvi lbi vi2 bi2
      else bgRIterPrev views vi2 bi2
  else (rvi, rbi)
termination_by ((rvi + 1).toNat, (rbi + 1).toNat)
decreasing_by
  rcases bgRNext_some views ((rvi + 1).toNat) rvi rbi ch vi2 bi2 (by omega) h with
    ⟨hv, ⟨h1, h2, h3⟩ | h1⟩
  · rw [h1]
    exact Prod.Lex.right _ (by omega)
  · exact Prod.Lex.left _ _ (by omega)

/-- `fast_buffer.BufferGroup._slice_from_iterators` (405-409):
`start = [views[lpos._view_idx][lpos._buf_idx:]]`,
`middle = views[lpos._view_idx + 1:rpos._view_idx]`,
`stop = [views[rpos._view_idx][:rpos._buf_idx + 1]]`, concatenated into
a new group.  The `start` and `stop` pieces index their member views
independently, so when both cursors end inside the same member that
member's bytes appear in two pieces. -/
def bgSliceFromIterators (views : List (List Nat)) (lvi lbi : Nat)
    (rvi rbi : Int) : List (List Nat) :=
  let first := views.getD lvi []
  let ms := pySliceIdx views.length ((lvi : Int) + 1)
  let me := pySliceIdx views.length rvi
  let stopv := pyViewsGet views rvi
  [pySliceI first (lbi : Int) (first.length : Int)] ++
    (views.drop ms).take (me - ms) ++ [pySliceI stopv 0 (rbi + 1)]

/-- `fast_buffer._BaseBufferView._strip_none` (118-141) over a
`BufferGroup`, whose members are the byte lists `views`: `lpos` starts
at member 0 offset 0 (567-570), `rpos` at member `len(views) - 1`
offset `len(views[-1]) - 1` (620-623); the left loop runs against the
initial `rpos`, the right loop against the final `lpos`, and the result
group is `_slice_from_iterators` of the final cursors. -/
def bgStripNone (views : List (List Nat)) ( left right : Bool) :
    List (List Nat) :=
  let rvi0 : Int := (views.length : Int) - 1
  let rbi0 : Int := ((pyViewsGet views (-1)).length : Int) - 1
  let lp := if left then bgStripL views rvi0 rbi0 0 0 else (0, 0)
  let rp := if right then bgStripR views lp.1 lp.2 rvi0 rbi0 else (rvi0, rbi0)
  bgSliceFromIterators views lp.1 lp.2 rp.1 rp.2

theorem viewBytes_merge (mem : Nat → List Nat) (l r : MView)
    (h1 : l.blockId = r.blockId) (h2 : l.off + l.len = r.off) :
    viewBytes mem ⟨l.blockId, l.off, l.len + r.len⟩ =
      viewBytes mem l ++ viewBytes mem r := by
  unfold viewBytes
  rw [← h1, ← h2]
  simp only []
  rw [List.take_add, List.drop_drop]

theorem append_flatBytes (mem : Nat → List Nat) (c : BufferCollator) (w : MView) :
    ((c.append w).views.map (viewBytes mem)).flatten =
      (c.views.map (viewBytes mem)).flatten ++ viewBytes mem w := by
  rcases hL : c.views.getLast? with _ | lastV
  · have hnil : c.views = [] := List.getLast?_eq_none_iff.1 hL
    simp [BufferCollator.append, hL, hnil]
  · have hsplit : c.views.dropLast ++ [lastV] = c.views :=
      List.dropLast_append_getLast? lastV hL
    by_cases hadj : lastV.blockId = w.blockId ∧ lastV.off + lastV.len = w.off
    · simp only [BufferCollator.append, hL, if_pos hadj]
      conv_rhs => rw [← hsplit]
      simp only [List.map_append, List.flatten_append, List.map_cons, List.map_nil,
        List.flatten_cons, List.flatten_nil]
      rw [viewBytes_merge mem lastV w hadj.1 hadj.2]
      simp [List.append_assoc]
    · simp only [BufferCollator.append, hL, if_neg hadj]
      simp

theorem append_totalLength (c : BufferCollator) (w : MView) :
    (c.append w).totalLength = c.totalLength + w.len := by
  rcases hL : c.views.getLast? with _ | lastV
  · simp [BufferCollator.append, hL]
  · by_cases hadj : lastV.blockId = w.blockId ∧ lastV.off + lastV.len = w.off
    · simp [BufferCollator.append, hL, if_pos hadj]
    · simp [BufferCollator.append, hL, if_neg hadj]

theorem foldl_append_flatBytes (mem : Nat → List Nat) (vs : List MView) :
    ∀ c : BufferCollator,
      ((vs.foldl BufferCollator.append c).views.map (viewBytes mem)).flatten =
        (c.views.map (viewBytes mem)).flatten ++ (vs.map (viewBytes mem)).flatten := by
  induction vs with
  | nil =>
    intro c
    simp
  | cons w vs ih =>
    intro c
    rw [List.foldl_cons, ih (c.append w), append_flatBytes]
    simp

theorem collapse_flatBytes (mem : Nat → List Nat) (c : BufferCollator) :
    collapseBytes mem ((c.collapse mem).1) =
      (c.views.map (viewBytes mem)).flatten ∧
    ((c.collapse mem).2.views = [] ∧ (c.collapse mem).2.totalLength = 0) := by
  unfold BufferCollator.collapse
  by_cases hone : c.views.length = 1
  · rw [if_pos hone]
    rcases c with ⟨views, total⟩
    rcases views with _ | ⟨w, ws⟩
    · simp at hone
    · rcases ws with _ | _
      · simp [collapseBytes]
      · simp at hone
  · rw [if_neg hone]
    exact ⟨rfl, rfl, rfl⟩

theorem addLoop_spec (src : List Nat) :
    ∀ k data wp i, wp + k ≤ data.length → i + k ≤ src.length →
      addLoop src k data wp i =
        (data.take wp ++ (src.drop i).take k ++ data.drop (wp + k), wp + k) := by
  intro k
  induction k with
  | zero =>
    intro data wp i hwp _
    rw [addLoop]
    simp [List.take_append_drop]
  | succ k ih =>
    intro data wp i hwp hsrc
    have hwpl : wp < data.length := by omega
    have hil : i < src.length := by omega
    rw [addLoop, ih _ _ _ (by rw [List.length_set]; omega) (by omega)]
    have hset : data.set wp (src.getD i 0) =
        (data.take wp ++ [src.getD i 0]) ++ data.drop (wp + 1) := by
      rw [List.set_eq_take_append_cons_drop, if_pos hwpl]
      simp
    have hplen : (data.take wp ++ [src.getD i 0]).length = wp + 1 := by
      rw [List.length_append, List.length_take, List.length_cons, List.length_nil]
      omega
    have htake : (data.set wp (src.getD i 0)).take (wp + 1) =
        data.take wp ++ [src.getD i 0] := by
      rw [hset, List.take_left' hplen]
    have hdrop1 : (data.set wp (src.getD i 0)).drop (wp + 1) =
        data.drop (wp + 1) := by
      rw [hset, List.drop_left' hplen]
    have hdrop : (data.set wp (src.getD i 0)).drop (wp + 1 + k) =
        data.drop (wp + (k + 1)) := by
      rw [← List.drop_drop, hdrop1, List.drop_drop]
      congr 1
      omega
    have hsrccons : (src.drop i).take (k + 1) =
        src.getD i 0 :: (src.drop (i + 1)).take k := by
      rw [List.drop_eq_getElem_cons hil, List.take_succ_cons,
        List.getD_eq_getElem src 0 hil]
    rw [htake, hdrop, hsrccons, Prod.mk.injEq]
    refine ⟨?_, by omega⟩
    simp [List.append_assoc]

theorem acquireReleaseStep_inv (p : BufferPool)
    (hl : p.freelist.length ≤ p.capacity)
    (hm : ∀ b ∈ p.freelist, b.writepos = 0) :
    (acquireReleaseStep p).capacity = p.capacity ∧
    (acquireReleaseStep p).freelist.length ≤ p.capacity ∧
    ∀ b ∈ (acquireReleaseStep p).freelist, b.writepos = 0 := by
  rcases p with ⟨cap, fl⟩
  simp only at hl hm ⊢
  rcases fl with _ | ⟨b, rest⟩
  · simp only [acquireReleaseStep, BufferPool.buffer, BufferPool.returnBuffer]
    by_cases h : (([] : List PoolBuf).length ≠ cap)
    · rw [if_pos h]
      simp only [List.length_nil] at h
      refine ⟨rfl, by simp; omega, ?_⟩
      intro x hx
      simp at hx
      rw [hx]
    · rw [if_neg h]
      exact ⟨rfl, by simpa using hl, hm⟩
  · simp only [acquireReleaseStep, BufferPool.buffer, BufferPool.returnBuffer]
    simp only [List.length_cons] at hl
    by_cases h : ((rest : List PoolBuf).length ≠ cap)
    · rw [if_pos h]
      refine ⟨rfl, by simp; omega, ?_⟩
      intro x hx
      rcases List.mem_cons.1 hx with hx | hx
      · rw [hx]
      · exact hm x (List.mem_cons_of_mem b hx)
    · rw [if_neg h]
      exact ⟨rfl, by simp; omega, fun x hx => hm x (List.mem_cons_of_mem b hx)⟩

theorem poolSteps_inv (capacity : Nat) : ∀ k,
    (poolSteps capacity k).capacity = capacity ∧
    (poolSteps capacity k).freelist.length ≤ capacity ∧
    ∀ b ∈ (poolSteps capacity k).freelist, b.writepos = 0 := by
  intro k
  induction k with
  | zero =>
    refine ⟨rfl, by simp [poolSteps, BufferPool.init], ?_⟩
    intro b hb
    simp only [poolSteps, BufferPool.init] at hb
    rw [List.eq_of_mem_replicate hb]
  | succ k ih =>
    rcases ih with ⟨hc, hl, hm⟩
    rw [poolSteps]
    have h2 := acquireReleaseStep_inv (poolSteps capacity k)
      (by rw [hc]; exact hl) hm
    exact ⟨h2.1.trans hc, le_of_le_of_eq h2.2.1 hc, h2.2.2⟩

theorem buffer_writepos (p : BufferPool)
    (hm : ∀ b ∈ p.freelist, b.writepos = 0) : ((p.buffer).1).writepos = 0 := by
  rcases p with ⟨cap, fl⟩
  rcases fl with _ | ⟨b, rest⟩
  · rfl
  · exact hm b (List.mem_cons_self b rest)

/-- C1: for every view `v` and every non-empty needle `n` with
`len(n) ≤ len(v)`, `v.find(n)` returns the smallest index `i` such that
the bytes `v[i .. i + len(n))` equal `n`, or -1 if no such index exists;
and `v.rfind(n)` returns the largest such index, or -1 if none exists. -/
theorem claim_C1_find_rfind (v n : List Nat) (h1 : 1 ≤ n.length)
    (h2 : n.length ≤ v.length) :
    ((∀ i : Nat, matchesAt v n i = false) →
      find v n 0 none = -1 ∧ rfind v n 0 none = -1) ∧
    (∀ i : Nat, matchesAt v n i = true →
      (∀ j, j < i → matchesAt v n j = false) → find v n 0 none = i) ∧
    (∀ i : Nat, matchesAt v n i = true →
      (∀ j, i < j → matchesAt v n j = false) → rfind v n 0 none = i) := by
  have hf := find_correct v n h1 h2
  have hr := rfind_correct v n h1 h2
  have hfs := firstMatchFrom_spec v n h1 (v.length + 1) 0 (by omega)
  have hls := lastMatchUpto_spec v n (((v.length : Int) - n.length) + 1).toNat
    ((v.length : Int) - n.length) (by omega)
  refine ⟨?_, ?_, ?_⟩
  · intro hnone
    constructor
    · rw [hf]
      by_contra hne
      rcases hfs.2 hne with ⟨i, _, _, hi3, _⟩
      rw [hnone i] at hi3
      exact Bool.false_ne_true hi3
    · rw [hr]
      by_contra hne
      rcases hls.2 hne with ⟨i, _, _, hi3, _⟩
      rw [hnone i] at hi3
      exact Bool.false_ne_true hi3
  · intro i hi hmin
    rw [hf]
    by_cases hne : firstMatchFrom v n 0 = -1
    · rw [hfs.1 hne i (by omega)] at hi
      exact absurd hi Bool.false_ne_true
    · rcases hfs.2 hne with ⟨i0, heq, _, hm0, hmin0⟩
      have hii : i0 = i := by
        by_contra hne2
        rcases Nat.lt_or_ge i0 i with hlt | hge
        · rw [hmin i0 hlt] at hm0
          exact Bool.false_ne_true hm0
        · have hlt2 : i < i0 := by omega
          rw [hmin0 i (by omega) hlt2] at hi
          exact Bool.false_ne_true hi
      rw [heq, hii]
  · intro i hi hmax
    rw [hr]
    have hile : (i : Int) ≤ (v.length : Int) - n.length := by
      rcases (matchesAt_iff h1).1 hi with ⟨hb, _⟩
      omega
    by_cases hne : lastMatchUpto v n ((v.length : Int) - n.length) = -1
    · rw [hls.1 hne i hile] at hi
      exact absurd hi Bool.false_ne_true
    · rcases hls.2 hne with ⟨i1, heq, _, hm1, hmax1⟩
      have hii : i1 = i := by
        by_contra hne2
        rcases Nat.lt_or_ge i1 i with hlt | hge
        · rw [hmax1 i (by omega) hile] at hi
          exact Bool.false_ne_true hi
        · have hlt2 : i < i1 := by omega
          rw [hmax i1 hlt2] at hm1
          exact Bool.false_ne_true hm1
      rw [heq, hii]

/-- C1 witness: at `v = [1,2,1,2]`, `n = [1,2]` the hypotheses hold, the
least match is at 0 and the greatest at 2. -/
theorem claim_C1_witness :
    (1 ≤ ([1, 2] : List Nat).length ∧
      ([1, 2] : List Nat).length ≤ ([1, 2, 1, 2] : List Nat).length) ∧
    find [1, 2, 1, 2] [1, 2] 0 none = 0 ∧
    rfind [1, 2, 1, 2] [1, 2] 0 none = 2 :=
  ⟨⟨by decide, by decide⟩,
    (claim_C1_find_rfind [1, 2, 1, 2] [1, 2] (by decide) (by decide)).2.1 0
      (by decide) (fun j hj => absurd hj (Nat.not_lt_zero j)),
    (claim_C1_find_rfind [1, 2, 1, 2] [1, 2] (by decide) (by decide)).2.2 2
      (by decide) (fun j hj => matchesAt_false_of_long (by decide)
        (by simp only [List.length_cons, List.length_nil]; omega))⟩

/-- C2: for every view `v` and non-empty separator `sep` with
`len(sep) ≤ len(v)`, `v.split(sep)` with `maxsplit = -1` yields a
non-empty list of pieces; concatenating them with `sep` re-inserted
between consecutive pieces reconstructs `v` exactly, and the final piece
is a trailing remainder `v[j:]` of the input (possibly empty) — the
remainder after the last found separator, or the whole input when no
separator is found. -/
theorem claim_C2_split_reconstructs (v sep : List Nat) (h1 : 1 ≤ sep.length)
    (h2 : sep.length ≤ v.length) :
    ∃ ps, split v sep (-1) = Except.ok ps ∧ ps ≠ [] ∧
      List.intercalate sep ps = v ∧
      ∃ j, j ≤ v.length ∧ ps.getLastD [] = v.drop j := by
  unfold split
  rw [dif_neg (by omega : ¬(sep.length = 0))]
  by_cases hone : sep.length = 1
  · rw [dif_pos hone]
    rcases splitCharAux_reconstruct v sep hone (v.length + 1) 0 (-1) (by omega)
      (by omega) with ⟨hne, hcat, j, _, hj2, hj3⟩
    exact ⟨_, rfl, hne, by simpa using hcat, j, hj2, hj3⟩
  · rw [dif_neg hone]
    rcases splitMultiAux_reconstruct v sep (by omega) (makeFindMask sep).1
      (makeFindMask sep).2 (v.length + 1) 0 (-1) (by omega) (by omega) with
      ⟨hne, hcat, j, _, hj2, hj3⟩
    exact ⟨_, rfl, hne, by simpa using hcat, j, hj2, hj3⟩

/-- C2 witness: `v = [97, 59]` (ASCII `a;`), `sep = [59]`; the final
yielded piece is empty. -/
theorem claim_C2_witness :
    (1 ≤ ([59] : List Nat).length ∧
      ([59] : List Nat).length ≤ ([97, 59] : List Nat).length) ∧
    ∃ ps, split [97, 59] [59] (-1) = Except.ok ps ∧ ps ≠ [] ∧
      List.intercalate [59] ps = [97, 59] ∧
      ∃ j, j ≤ ([97, 59] : List Nat).length ∧
        ps.getLastD [] = List.drop j [97, 59] :=
  ⟨⟨by decide, by decide⟩,
    claim_C2_split_reconstructs [97, 59] [59] (by decide) (by decide)⟩

/-- C3 counterexample, in two parts.  View part: `strip()` with no
character set on the view `[0xA0, 0x41]` removes the leading byte 0xA0
even though 0xA0 does not satisfy the ASCII whitespace predicate
(`asciiSpace`).  The claim as stated requires the result `[0xA0, 0x41]`
(no byte of the maximal ASCII whitespace runs exists), but the code
yields `[0x41]`: `_strip_none` trims with `chr(b).isspace()`, which is
true for 0xA0.  Group part: `strip()` on the fast_buffer `BufferGroup`
with the single member `[0x41]` yields a group whose bytes are
`[0x41, 0x41]` — neither cursor moves (0x41 is whitespace under neither
predicate, so the claim requires the unchanged `[0x41]`), yet
`_slice_from_iterators` emits the member once as its `start` piece and
once as its `stop` piece, duplicating the byte instead of removing
nothing. -/
theorem claim_C3_counterexample :
    (stripNone [160, 65] true true = [65] ∧
      List.rdropWhile asciiSpace (List.dropWhile asciiSpace [160, 65]) =
        [160, 65] ∧
      (([65] : List Nat) == [160, 65]) = false) ∧
    ((bgStripNone [[65]] true true).flatten = [65, 65] ∧
      List.rdropWhile asciiSpace (List.dropWhile asciiSpace [65]) = [65] ∧
      List.rdropWhile pyIsSpaceByte (List.dropWhile pyIsSpaceByte [65]) =
        [65] ∧
      (([65, 65] : List Nat) == [65]) = false) := by
  refine ⟨⟨?_, by decide, by decide⟩, ⟨?_, by decide, by decide, by decide⟩⟩
  · simp [stripNone, stripLPos, stripRPos, pySlice, byteAt, pyIsSpaceByte]
  · simp [bgStripNone, bgStripL, bgStripR, bgSliceFromIterators, pySliceI,
      pySliceIdx, pyViewsGet, byteAt]

/-- C3 (amended): for every contiguous view (both the zero_buffer and the
fast_buffer implementation), `strip`/`lstrip`/`rstrip` with no explicit
character set removes exactly the maximal leading and/or trailing run of
bytes satisfying Python's `chr(b).isspace()` predicate (bytes 9-13,
28-31, 32, 0x85 and 0xA0), and removes no other bytes. -/
theorem claim_C3_strip_trims (v : List Nat) :
    (stripNone v true false = List.dropWhile pyIsSpaceByte v ∧
     stripNone v false true = List.rdropWhile pyIsSpaceByte v ∧
     stripNone v true true =
       List.rdropWhile pyIsSpaceByte (List.dropWhile pyIsSpaceByte v)) ∧
    (stripNoneFast v true false = List.dropWhile pyIsSpaceByte v ∧
     stripNoneFast v false true = List.rdropWhile pyIsSpaceByte v ∧
     stripNoneFast v true true =
       List.rdropWhile pyIsSpaceByte (List.dropWhile pyIsSpaceByte v)) := by
  have hLb := stripLPos_bounds v (v.length + 1) 0 v.length (by omega)
  rw [Nat.max_eq_right (Nat.zero_le v.length)] at hLb
  have hL : v.drop (stripLPos v 0 v.length) = List.dropWhile pyIsSpaceByte v := by
    have hx := stripLPos_drop v (v.length + 1) 0 (by omega) (by omega)
    simpa using hx
  have hslice : pySlice v 0 v.length = v := by
    rw [pySlice_eq (le_refl _) (by omega)]
    simp
  have h1 : stripNone v true false = List.dropWhile pyIsSpaceByte v := by
    show pySlice v (stripLPos v 0 v.length) v.length = _
    rw [pySlice_to_len]
    exact hL
  have h2 : stripNone v false true = List.rdropWhile pyIsSpaceByte v := by
    show pySlice v 0 (stripRPos v 0 v.length) = _
    rw [stripRPos_slice v 0 (by omega) v.length (by omega) (le_refl _), hslice]
  have h3 : stripNone v true true =
      List.rdropWhile pyIsSpaceByte (List.dropWhile pyIsSpaceByte v) := by
    show pySlice v (stripLPos v 0 v.length)
      (stripRPos v (stripLPos v 0 v.length) v.length) = _
    rw [stripRPos_slice v (stripLPos v 0 v.length) (by omega) v.length
      (by omega) (le_refl _), pySlice_to_len, hL]
  have hLeq : fsLPos v 0 v.length = stripLPos v 0 v.length :=
    fsLPos_eq v (v.length + 1) 0 v.length (by omega)
  have hf1 : stripNoneFast v true false = stripNone v true false := by
    show pySlice v (fsLPos v 0 v.length) v.length =
      pySlice v (stripLPos v 0 v.length) v.length
    rw [hLeq]
  have hf2 : stripNoneFast v false true = stripNone v false true := by
    show pySlice v 0 (fsRPos v 0 v.length) = pySlice v 0 (stripRPos v 0 v.length)
    rw [fsRPos_eq]
  have hf3 : stripNoneFast v true true = stripNone v true true := by
    show pySlice v (fsLPos v 0 v.length)
        (fsRPos v (fsLPos v 0 v.length) v.length) =
      pySlice v (stripLPos v 0 v.length)
        (stripRPos v (stripLPos v 0 v.length) v.length)
    rw [hLeq, fsRPos_eq]
  exact ⟨⟨h1, h2, h3⟩, ⟨hf1.trans h1, hf2.trans h2, hf3.trans h3⟩⟩

/-- C4 counterexample: in zero_buffer, the two views `l = ⟨block 0, 0, 2⟩`
and `r = ⟨block 1, 2, 2⟩` are not byte-adjacent, yet `l + r` is a freshly
allocated, copied, contiguous view (`CollapseResult.fresh`, via the
collator) — not a two-element ViewGroup containing `l` and `r` as the
claim states (zero_buffer has no view-group type and its `collapse`
copies).  fast_buffer does return the claimed group for the same pair. -/
theorem claim_C4_counterexample :
    zbAdd (fun _ => [1, 2, 3, 4]) ⟨0, 0, 2⟩ ⟨1, 2, 2⟩ =
      CollapseResult.fresh [1, 2, 3, 4] ∧
    fbAdd ⟨0, 0, 2⟩ ⟨1, 2, 2⟩ = ViewOrGroup.group [⟨0, 0, 2⟩, ⟨1, 2, 2⟩] :=
  ⟨rfl, rfl⟩

/-- C4 (amended): when the right view is byte-adjacent to the left one in
the same block, both implementations return the single merged view over
the combined range, whose length is `len l + len r` and whose bytes are
`l`'s bytes followed by `r`'s bytes; otherwise fast_buffer returns the
two-element ViewGroup `[l, r]` while zero_buffer returns a freshly
allocated contiguous view holding the copied concatenation. -/
theorem claim_C4_add (mem : Nat → List Nat) (l r : MView) :
    (l.blockId = r.blockId ∧ l.off + l.len = r.off →
      fbAdd l r = ViewOrGroup.single ⟨l.blockId, l.off, l.len + r.len⟩ ∧
      zbAdd mem l r = CollapseResult.reused ⟨l.blockId, l.off, l.len + r.len⟩ ∧
      viewBytes mem ⟨l.blockId, l.off, l.len + r.len⟩ =
        viewBytes mem l ++ viewBytes mem r) ∧
    (¬(l.blockId = r.blockId ∧ l.off + l.len = r.off) →
      fbAdd l r = ViewOrGroup.group [l, r] ∧
      zbAdd mem l r = CollapseResult.fresh (viewBytes mem l ++ viewBytes mem r)) := by
  constructor
  · intro hadj
    refine ⟨by rw [fbAdd, if_pos hadj], ?_, viewBytes_merge mem l r hadj.1 hadj.2⟩
    unfold zbAdd
    simp only [BufferCollator.append, List.getLast?_nil, List.getLast?_singleton,
      if_pos hadj, List.dropLast_single, List.nil_append]
    simp [BufferCollator.collapse]
  · intro hadj
    refine ⟨by rw [fbAdd, if_neg hadj], ?_⟩
    unfold zbAdd
    simp only [BufferCollator.append, List.getLast?_nil, List.getLast?_singleton,
      if_neg hadj, List.singleton_append]
    simp [BufferCollator.collapse, viewBytes]

/-- C4 witness: concrete adjacent views `⟨0,0,2⟩, ⟨0,2,2⟩` and
non-adjacent views `⟨0,0,2⟩, ⟨1,2,2⟩` over blocks `[1,2,3,4]`. -/
theorem claim_C4_witness :
    (fbAdd ⟨0, 0, 2⟩ ⟨0, 2, 2⟩ = ViewOrGroup.single ⟨0, 0, 4⟩ ∧
      zbAdd (fun _ => [1, 2, 3, 4]) ⟨0, 0, 2⟩ ⟨0, 2, 2⟩ =
        CollapseResult.reused ⟨0, 0, 4⟩ ∧
      viewBytes (fun _ => [1, 2, 3, 4]) ⟨0, 0, 4⟩ =
        viewBytes (fun _ => [1, 2, 3, 4]) ⟨0, 0, 2⟩ ++
          viewBytes (fun _ => [1, 2, 3, 4]) ⟨0, 2, 2⟩) ∧
    (fbAdd ⟨0, 0, 2⟩ ⟨1, 2, 2⟩ = ViewOrGroup.group [⟨0, 0, 2⟩, ⟨1, 2, 2⟩] ∧
      zbAdd (fun _ => [1, 2, 3, 4]) ⟨0, 0, 2⟩ ⟨1, 2, 2⟩ =
        CollapseResult.fresh
          (viewBytes (fun _ => [1, 2, 3, 4]) ⟨0, 0, 2⟩ ++
            viewBytes (fun _ => [1, 2, 3, 4]) ⟨1, 2, 2⟩)) :=
  ⟨(claim_C4_add (fun _ => [1, 2, 3, 4]) ⟨0, 0, 2⟩ ⟨0, 2, 2⟩).1 ⟨rfl, rfl⟩,
   (claim_C4_add (fun _ => [1, 2, 3, 4]) ⟨0, 0, 2⟩ ⟨1, 2, 2⟩).2 (by decide)⟩

/-- C5: for every `BufferPool(capacity, _)` and any number of rounds of
`acquire()` immediately followed by `release()` (in particular
`capacity + 1` rounds, and at every intermediate state), at most
`capacity` blocks are retained in the freelist, every retained block has
`writepos = 0`, and the block the next `acquire()` hands out — pooled or
fresh — has `writepos = 0`. -/
theorem claim_C5_pool (capacity k : Nat) :
    (poolSteps capacity k).freelist.length ≤ capacity ∧
    (∀ b ∈ (poolSteps capacity k).freelist, b.writepos = 0) ∧
    (((poolSteps capacity k).buffer).1).writepos = 0 := by
  rcases poolSteps_inv capacity k with ⟨_, hl, hm⟩
  exact ⟨hl, hm, buffer_writepos _ hm⟩

/-- C5 witness: capacity 2 with `2 + 1` rounds. -/
theorem claim_C5_witness :
    (poolSteps 2 3).freelist.length ≤ 2 ∧
    (((poolSteps 2 3).buffer).1).writepos = 0 :=
  ⟨(claim_C5_pool 2 3).1, (claim_C5_pool 2 3).2.2⟩

/-- C6: `BufferGroup.find` evaluated at the failing inputs.  For the group
of one-byte views `[0x07], [0x00]` with needle `0x07` and `start = 1`
there is no index `i` with `1 ≤ i < 2` and byte 7, so the claim requires
-1, but the code returns 0 — a hit before `start`, because the absolute
`start` is reused as a local offset inside each member view instead of
being translated.  Likewise for `[0x00,0x00],[0x07,0x07]` with
`start = 1` the smallest in-range hit is at absolute 2, but the code
returns 3 (it searches the second member from local offset 1). -/
theorem claim_C6_group_find_eval :
    bgFind [[7], [0]] [7] 1 none = Except.ok 0 ∧
    bgFind [[0, 0], [7, 7]] [7] 1 none = Except.ok 3 := by
  constructor <;>
    simp [bgFind, bgFindLoop, pyStopOrLen, find, memchrFind, byteAt]

/-- C7: for every memory environment and every sequence of views appended
in order to a fresh collator, `collapse()` returns a result whose bytes
are the byte-wise concatenation of the appended views' bytes (the empty
view when nothing was appended), and afterwards the collator holds no
views and total length 0, so it is reusable. -/
theorem claim_C7_collator (mem : Nat → List Nat) (vs : List MView) :
    collapseBytes mem
        (((vs.foldl BufferCollator.append ⟨[], 0⟩).collapse mem).1) =
      (vs.map (viewBytes mem)).flatten ∧
    ((vs.foldl BufferCollator.append ⟨[], 0⟩).collapse mem).2.views = [] ∧
    ((vs.foldl BufferCollator.append ⟨[], 0⟩).collapse mem).2.totalLength = 0 := by
  rcases collapse_flatBytes mem (vs.foldl BufferCollator.append ⟨[], 0⟩) with
    ⟨h1, h2, h3⟩
  refine ⟨?_, h2, h3⟩
  rw [h1, foldl_append_flatBytes]
  simp

/-- C8: `add_bytes` fails with `BufferFull` if and only if `free = 0` on
entry; otherwise it copies exactly `min(len(b), free)` bytes starting at
`writepos`, advances `writepos` by that count, and returns that count (a
partial write when some room exists is not an error). -/
theorem claim_C8_add_bytes (buf : RawBuffer) (b : List Nat) :
    (addBytes buf b = Except.error () ↔ buf.free = 0) ∧
    (buf.free ≠ 0 →
      addBytes buf b = Except.ok (min b.length buf.free,
        ⟨buf.data.take buf.writepos ++ b.take (min b.length buf.free) ++
            buf.data.drop (buf.writepos + min b.length buf.free),
          buf.writepos + min b.length buf.free⟩)) := by
  by_cases hf : buf.free = 0
  · constructor
    · exact ⟨fun _ => hf, fun _ => by rw [addBytes, if_pos hf]⟩
    · intro h
      exact absurd hf h
  · have hwp : buf.writepos + min b.length buf.free ≤ buf.data.length := by
      unfold RawBuffer.free at hf ⊢
      omega
    have hspec := addLoop_spec b (min b.length buf.free) buf.data buf.writepos 0
      hwp (by omega)
    have hok : addBytes buf b = Except.ok (min b.length buf.free,
        ⟨buf.data.take buf.writepos ++ b.take (min b.length buf.free) ++
            buf.data.drop (buf.writepos + min b.length buf.free),
          buf.writepos + min b.length buf.free⟩) := by
      unfold addBytes
      rw [if_neg hf]
      simp only [hspec, List.drop_zero]
    constructor
    · constructor
      · intro h
        rw [hok] at h
        exact Except.noConfusion h
      · intro h
        exact absurd h hf
    · intro _
      exact hok

/-- C8 witness: a block of capacity 4 with `writepos = 2` and a 3-byte
payload — a partial write of 2 bytes, not an error. -/
theorem claim_C8_witness :
    (RawBuffer.mk [0, 0, 0, 0] 2).free ≠ 0 ∧
    addBytes ⟨[0, 0, 0, 0], 2⟩ [9, 9, 9] =
      Except.ok (2, ⟨[0, 0, 9, 9], 4⟩) :=
  ⟨by decide, (claim_C8_add_bytes ⟨[0, 0, 0, 0], 2⟩ [9, 9, 9]).2 (by decide)⟩

/-- C9 counterexample: comparing a one-byte view with values that are
neither views nor byte strings: against the sized value of length 0 the
code returns `False` (the `len(self) != len(other)` early return), and
against a value with no length it raises `TypeError` (from `len(other)`)
— in both cases not the `NotImplemented` the claim requires. -/
theorem claim_C9_counterexample :
    viewEq (fun _ => [7]) ⟨0, 0, 1⟩ (PyValue.sized 0) = EqResult.bool false ∧
    viewEq (fun _ => [7]) ⟨0, 0, 1⟩ PyValue.unsized = EqResult.typeError :=
  ⟨rfl, rfl⟩

/-- C9 (amended): `BufferView.__eq__` with a value that is neither a view
nor a byte string returns `NotImplemented` exactly when the value is a
sized object whose length equals the view's; a sized non-byte value of a
different length compares as `False`, and a value with no length raises
`TypeError` from the initial `len(other)` call. -/
theorem claim_C9_eq (mem : Nat → List Nat) (v : MView) (o : PyValue) :
    (viewEq mem v o = EqResult.notImplemented ↔
      ∃ m, o = PyValue.sized m ∧ m = v.len) ∧
    (viewEq mem v PyValue.unsized = EqResult.typeError) ∧
    (∀ m, m ≠ v.len → viewEq mem v (PyValue.sized m) = EqResult.bool false) := by
  refine ⟨?_, rfl, ?_⟩
  · rcases o with w | bs | m | _
    · by_cases hl : v.len ≠ w.len <;> simp [viewEq, pyLenOf, hl]
    · by_cases hl : v.len ≠ bs.length <;> simp [viewEq, pyLenOf, hl]
    · by_cases hl : v.len ≠ m <;> simp [viewEq, pyLenOf, hl]
      · omega
      · omega
    · simp [viewEq, pyLenOf]
  · intro m hm
    simp [viewEq, pyLenOf, Ne.symm hm]

/-- C9 witness: a sized value of matching length yields `NotImplemented`;
one of different length yields `False`. -/
theorem claim_C9_witness :
    viewEq (fun _ => [7]) ⟨0, 0, 1⟩ (PyValue.sized 1) = EqResult.notImplemented ∧
    viewEq (fun _ => [7]) ⟨0, 0, 1⟩ (PyValue.sized 2) = EqResult.bool false :=
  ⟨((claim_C9_eq (fun _ => [7]) ⟨0, 0, 1⟩ (PyValue.sized 1)).1).2 ⟨1, rfl, rfl⟩,
    ((claim_C9_eq (fun _ => [7]) ⟨0, 0, 1⟩ (PyValue.sized 2)).2).2 2 (by decide)⟩

/-- C10: passing `stop = 0` to `find` or `rfind` is treated as "search to
the end of the view" — `stop = stop or len(self)` maps both `None` and
`0` to the view length — so it behaves exactly like `stop = len(v)`
rather than searching the empty range `[start, 0)`. -/
theorem claim_C10_stop_zero (v n : List Nat) (start : Int) :
    find v n start (some 0) = find v n start (some (v.length : Int)) ∧
    rfind v n start (some 0) = rfind v n start (some (v.length : Int)) := by
  have h : pyStopOrLen (some 0) v.length =
      pyStopOrLen (some (v.length : Int)) v.length := by
    show (if (0 : Int) = 0 then ((v.length : Nat) : Int) else 0) =
      (if ((v.length : Nat) : Int) = 0 then ((v.length : Nat) : Int)
       else ((v.length : Nat) : Int))
    rw [if_pos rfl, ite_self]
  constructor
  · unfold find
    rw [h]
  · unfold rfind
    rw [h]

end Alexi
